import Mathlib

/-!
# Verification of the sentry-release-parser specification

Shallow embedding of `src/parser.rs` (release/version parsing and
normalization).  Strings are modelled as `List Char`; Rust byte lengths
(`str::len`) are modelled by summing UTF-8 sizes; the anchored regular
expressions of the source are translated into equivalent deterministic
recognizers, justified case by case in the comments.
-/

namespace SentryRelease

/-- Strings are lists of unicode scalar values, as in Rust's `str::chars`. -/
abbrev Str := List Char

/-- UTF-8 byte length of a string, as computed by Rust's `str::len`. -/
def utf8Len (s : Str) : Nat := (s.map Char.utf8Size).sum

/-- Rust's `char::is_whitespace`: the Unicode `White_Space` property. -/
def rustIsWhitespace (c : Char) : Bool :=
  let n := c.toNat
  (0x9 ≤ n && n ≤ 0xD) || n = 0x20 || n = 0x85 || n = 0xA0 || n = 0x1680 ||
  (0x2000 ≤ n && n ≤ 0x200A) || n = 0x2028 || n = 0x2029 || n = 0x202F ||
  n = 0x205F || n = 0x3000

/-- Rust's `str::trim`: strip `White_Space` characters from both ends. -/
def trim (s : Str) : Str :=
  ((s.dropWhile rustIsWhitespace).reverse.dropWhile rustIsWhitespace).reverse

/-- One character of `[a-fA-F0-9]` (the class of `HEX_REGEX`). -/
def isHexChar (c : Char) : Bool :=
  c.isDigit || ('a' ≤ c && c ≤ 'f') || ('A' ≤ c && c ≤ 'F')

/-- `HEX_REGEX.is_match`: `^[a-fA-F0-9]+$`, i.e. nonempty and all hex. -/
def hexMatch (s : Str) : Bool := !s.isEmpty && s.all isHexChar

/-- `is_build_hash` from `parser.rs`: the byte length must be one of the
fixed hash lengths and the whole string must match `HEX_REGEX`. -/
def is_build_hash (s : Str) : Bool :=
  let n := utf8Len s
  if n = 12 || n = 16 || n = 20 || n = 32 || n = 40 || n = 64 then hexMatch s
  else false

/-- `VALID_RELEASE_REGEX.is_match`: `^[^/\r\n]*\z`, i.e. the string contains
no `/`, no carriage return and no line feed. -/
def validReleaseMatch (s : Str) : Bool :=
  s.all fun c => !(c = '/') && !(c = '\r') && !(c = '\n')

/-! ## The release-splitting regex `^(@?[^@]+)@(.*?)$`

`captures` on this anchored pattern succeeds exactly when the input is
`package ++ '@' ++ rest` where `package` is one or more non-`@` characters,
optionally preceded by a single literal `@`, and `rest` (group 2, matched by
`.` which excludes `'\n'`) contains no line feed.  Since `[^@]+` cannot cross
an `@`, the split point is the first `@` that leaves a nonempty package. -/

/-- Split a string at its first `'@'`, returning the (necessarily `@`-free)
part before it and the part after it. -/
def splitAtFirstAt : Str → Option (Str × Str)
  | [] => none
  | c :: rest =>
    if c = '@' then some ([], rest)
    else (splitAtFirstAt rest).map fun pv => (c :: pv.1, pv.2)

/-- The group-1/group-2 split of `RELEASE_REGEX` before the group-2
line-feed restriction: an optional leading `@`, then one or more non-`@`
characters, then the separating `@`. -/
def releaseCore (s : Str) : Option (Str × Str) :=
  match s with
  | [] => none
  | c :: rest =>
    if c = '@' then
      (splitAtFirstAt rest).bind fun pv =>
        if pv.1 = [] then none else some (c :: pv.1, pv.2)
    else splitAtFirstAt (c :: rest)

/-- `RELEASE_REGEX.captures`: the package/version split described above
(group 2 is matched by `.`, which cannot match a line feed). -/
def releaseCaptures (s : Str) : Option (Str × Str) :=
  (releaseCore s).bind fun pv => if pv.2.contains '\n' then none else some pv

/-! ## The version grammar `VERSION_REGEX`

The anchored pattern is

```
^ (?P<major>0|[1-9][0-9]*)
  (?:\.(?P<minor>0|[1-9][0-9]*))?
  (?:\.(?P<patch>0|[1-9][0-9]*))?
  (?:(?P<prerelease>(?:-|[a-z])
      (?:0|[1-9][0-9]*|[0-9]*[a-zA-Z-][0-9a-zA-Z-]*)?
      (?:\.(?:0|[1-9][0-9]*|[0-9]*[a-zA-Z-][0-9a-zA-Z-]*))*))?
  (?:\+(?P<build_code>[0-9a-zA-Z-]+(?:\.[0-9a-zA-Z-]+)*))? $
```

Although regex matching backtracks, this particular grammar is
deterministic, which justifies the recursive-descent translation below:

* a numeric group is followed only by `.`, `-`, `[a-z]`, `+` or the end of
  input, none of which can consume a digit, so digit runs are maximal and
  `0` followed by another digit dooms the whole match;
* after a `.` that follows major (resp. minor), only the minor (resp.
  patch) group can consume the dot, so if a number does not follow, the
  whole match fails;
* the pre-release group cannot consume `+`, and if it stopped before a
  non-`+` character the required `(\+build)?$` continuation would fail
  there, so on success it extends exactly to the first `+` (or the end),
  and the text it spans must split on `.` into segments that each match
  `0|[1-9][0-9]*|[0-9]*[a-zA-Z-][0-9a-zA-Z-]*`, the first being allowed
  to be empty;
* the build group likewise must span the entire remainder after `+`.
-/

/-- One character of `[0-9a-zA-Z-]`. -/
def isAlnumHyphen (c : Char) : Bool :=
  c.isDigit || c.isLower || c.isUpper || c = '-'

/-- Split a string on `'.'` separators (empty parts are kept, as in the
regex analysis: an empty part can only be matched by an empty segment). -/
def splitOnDot : Str → List Str
  | [] => [[]]
  | c :: rest =>
    if c = '.' then [] :: splitOnDot rest
    else
      match splitOnDot rest with
      | [] => [[c]]
      | p :: ps => (c :: p) :: ps

/-- A nonempty `.`-free segment of the pre-release tag:
`0|[1-9][0-9]*|[0-9]*[a-zA-Z-][0-9a-zA-Z-]*` matched in full. -/
def segOk (t : Str) : Bool :=
  (t = ['0']) ||
  (!t.isEmpty && t.all Char.isDigit && !(t.head? = some '0')) ||
  (!t.isEmpty && t.all isAlnumHyphen && t.any fun c => !c.isDigit)

/-- Maximal digit run at the front of a string. -/
def takeDigits (s : Str) : Str × Str :=
  (s.takeWhile Char.isDigit, s.dropWhile Char.isDigit)

/-- Parse a numeric group `0|[1-9][0-9]*`.  Returns the digits and the rest
of the input; `none` means the whole regex match fails (see above). -/
def numGroup : Str → Option (Str × Str)
  | [] => none
  | c :: rest =>
    if c = '0' then
      match rest with
      | [] => some (['0'], [])
      | d :: _ => if d.isDigit then none else some (['0'], rest)
    else if c.isDigit then
      let td := takeDigits rest
      some (c :: td.1, td.2)
    else none

/-- Parse an optional `(?:\.(number))?` group.  The outer `some` is overall
match success, the inner `Option` is whether the group matched. -/
def dotNum (s : Str) : Option (Option Str × Str) :=
  match s with
  | [] => some (none, [])
  | c :: rest =>
    if c = '.' then
      match numGroup rest with
      | some dr => some (some dr.1, dr.2)
      | none => none
    else some (none, c :: rest)

/-- Split at the first `'+'` (which starts the build-metadata group). -/
def takeUntilPlus (s : Str) : Str × Str :=
  (s.takeWhile (fun c => !(c = '+')), s.dropWhile (fun c => !(c = '+')))

/-- The pre-release text after its leading `-`/letter matches
`(?:0|[1-9][0-9]*|[0-9]*[a-zA-Z-][0-9a-zA-Z-]*)?(?:\.seg)*` in full:
the first `.`-separated part may be empty, and every part must otherwise be
a whole segment. -/
def preTextOk (t : Str) : Bool :=
  match splitOnDot t with
  | [] => false
  | p0 :: ps => (p0.isEmpty || segOk p0) && ps.all segOk

/-- The build-metadata text after `+` matches
`[0-9a-zA-Z-]+(?:\.[0-9a-zA-Z-]+)*` in full: every `.`-separated part is
nonempty and alphanumeric-or-hyphen. -/
def buildTextOk (t : Str) : Bool :=
  (splitOnDot t).all fun p => !p.isEmpty && p.all isAlnumHyphen

/-- Parse the optional pre-release group. -/
def preGroup (s : Str) : Option (Option Str × Str) :=
  match s with
  | [] => some (none, [])
  | c :: rest =>
    if c = '-' || c.isLower then
      let tp := takeUntilPlus rest
      if preTextOk tp.1 then some (some (c :: tp.1), tp.2) else none
    else some (none, c :: rest)

/-- Parse the optional `(?:\+build)?` group, which must consume the whole
remaining input (the regex is `$`-anchored). -/
def buildGroup (s : Str) : Option (Option Str) :=
  match s with
  | [] => some none
  | c :: rest =>
    if c = '+' then
      if buildTextOk rest then some (some rest) else none
    else none

/-- The raw capture groups of a successful `VERSION_REGEX` match. -/
structure RawCaps where
  major : Str
  minor : Option Str
  patch : Option Str
  prerelease : Option Str
  build_code : Option Str
deriving DecidableEq, Repr

/-- `VERSION_REGEX.captures`. -/
def versionCaptures (s : Str) : Option RawCaps :=
  match numGroup s with
  | none => none
  | some (maj, r1) =>
    match dotNum r1 with
    | none => none
    | some (mn, r2) =>
      match dotNum r2 with
      | none => none
      | some (pt, r3) =>
        match preGroup r3 with
        | none => none
        | some (pr, r4) =>
          match buildGroup r4 with
          | none => none
          | some bc => some ⟨maj, mn, pt, pr, bc⟩

/-! ## The `Version` and `Release` data model -/

/-- The single error kind of `Version::parse`. -/
inductive InvalidVersion where
  | invalidVersion
deriving DecidableEq, Repr

/-- The error kinds of `Release::parse`. -/
inductive InvalidRelease where
  | tooLong
  | restrictedName
  | badCharacters
deriving DecidableEq, Repr

/-- Numeric value of a big-endian digit string (what `str::parse::<u64>`
computes before its range check). -/
def digitsToNat (s : Str) : Nat :=
  s.foldl (fun a c => 10 * a + (c.toNat - 48)) 0

/-- `str::parse::<u64>().unwrap_or(0)` on a digit string: overflow beyond
`u64::MAX` yields `Err`, which `unwrap_or` turns into `0`. -/
def u64val (s : Str) : Nat :=
  let n := digitsToNat s
  if n < 2 ^ 64 then n else 0

/-- A parsed version (struct `Version` in `parser.rs`).  The `pre` and
`build_code` fields use the empty string as the sentinel for "absent". -/
structure Version where
  raw : Str
  major : Nat
  minor : Nat
  patch : Nat
  pre : Str
  build_code : Str
  components : Nat
deriving DecidableEq, Repr

/-- Strip one leading `'-'`, as done for the captured pre-release text. -/
def stripLeadingDash (s : Str) : Str :=
  match s with
  | [] => []
  | c :: r => if c = '-' then r else c :: r

/-- `Version::parse`. -/
def Version.parse (s : Str) : Except InvalidVersion Version :=
  match versionCaptures s with
  | none => .error .invalidVersion
  | some caps =>
    .ok
      { raw := s
        major := u64val caps.major
        minor := (caps.minor.map u64val).getD 0
        patch := (caps.patch.map u64val).getD 0
        pre := (caps.prerelease.map stripLeadingDash).getD []
        build_code := caps.build_code.getD []
        components :=
          1 + (if caps.minor.isSome then 1 else 0) +
            (if caps.patch.isSome then 1 else 0) }

/-- Accessor `Version::pre`: `None` iff the sentinel is empty. -/
def Version.preOpt (v : Version) : Option Str :=
  if v.pre.isEmpty then none else some v.pre

/-- Accessor `Version::build_code`: `None` iff the sentinel is empty. -/
def Version.buildCodeOpt (v : Version) : Option Str :=
  if v.build_code.isEmpty then none else some v.build_code

/-- A parsed release (struct `Release` in `parser.rs`). -/
structure Release where
  raw : Str
  package : Str
  version_raw : Str
  version : Option Version
deriving DecidableEq, Repr

/-- The restricted release names. -/
def restrictedNames : List Str := [['.'], ['.', '.'], ['l', 'a', 't', 'e', 's', 't']]

/-- `Release::parse`. -/
def Release.parse (s : Str) : Except InvalidRelease Release :=
  let r := trim s
  if 250 < utf8Len r then .error .tooLong
  else if r = ['.'] || r = ['.', '.'] || r = ['l', 'a', 't', 'e', 's', 't'] then
    .error .restrictedName
  else if !validReleaseMatch r then .error .badCharacters
  else
    match releaseCaptures r with
    | some (pkg, vr) =>
      if !is_build_hash vr then
        .ok ⟨r, pkg, vr, (Version.parse vr).toOption⟩
      else
        .ok ⟨r, pkg, vr, none⟩
    | none => .ok ⟨r, [], r, none⟩

/-- Accessor `Release::package`: `None` iff the sentinel is empty. -/
def Release.packageOpt (r : Release) : Option Str :=
  if r.package.isEmpty then none else some r.package

/-- `Release::build_hash`: the version's build code if it is itself a hash,
otherwise the whole raw version part if that is a hash. -/
def Release.build_hash (r : Release) : Option Str :=
  match r.version.bind Version.buildCodeOpt with
  | some bc =>
    if is_build_hash bc then some bc
    else if is_build_hash r.version_raw then some r.version_raw else none
  | none => if is_build_hash r.version_raw then some r.version_raw else none

/-! ## Rendering (`Display` impls) -/

/-- Decimal digits of a natural number, most significant first, as printed
by Rust's `{}` formatting of a `u64`. -/
def natDigits (n : Nat) : Str := Nat.toDigits 10 n

/-- `Display for VersionDescription`: the dot-joined numeric components
that were present.  `none` models the `unreachable!()` arm.  (The Rust
`match` arms `3`, `2`, `1`, `_` are disjoint patterns, rendered here as a
chain of equality tests.) -/
def versionDescription (v : Version) : Option Str :=
  if v.components = 3 then
    some (natDigits v.major ++ '.' :: (natDigits v.minor ++ '.' :: natDigits v.patch))
  else if v.components = 2 then some (natDigits v.major ++ '.' :: natDigits v.minor)
  else if v.components = 1 then some (natDigits v.major)
  else none

/-- `Display for Version`: the description, then `-pre` and `+build_code`
when present. -/
def Version.render (v : Version) : Option Str :=
  (versionDescription v).map fun d =>
    d ++ (if v.pre.isEmpty then [] else '-' :: v.pre) ++
      (if v.build_code.isEmpty then [] else '+' :: v.build_code)

/-- `Display for Release`: the package and an `@` when the package is
present, then the rendered version, or the verbatim `version_raw` when no
version was parsed. -/
def Release.render (r : Release) : Option Str :=
  let verPart : Option Str :=
    match r.version with
    | some v => v.render
    | none => some r.version_raw
  verPart.map fun vp =>
    (if r.package.isEmpty then [] else r.package ++ ['@']) ++ vp

/-! ## Predicates used to state the claims -/

/-- The corrected pre-release segment rule, spelled out: a whole segment is
`"0"`, a digit run with no leading zero, or an alphanumeric-and-hyphen run
containing at least one non-digit. -/
def SegRule (p : Str) : Prop :=
  p = ['0'] ∨
  (p ≠ [] ∧ (∀ c ∈ p, c.isDigit = true) ∧ p.head? ≠ some '0') ∨
  (p ≠ [] ∧ (∀ c ∈ p, isAlnumHyphen c = true) ∧ ∃ c ∈ p, c.isDigit = false)

/-- Equality of all parsed version fields except the raw input slice. -/
def versionFieldsEq (a b : Version) : Prop :=
  a.major = b.major ∧ a.minor = b.minor ∧ a.patch = b.patch ∧
    a.pre = b.pre ∧ a.build_code = b.build_code ∧ a.components = b.components

/-- Field equality lifted to the optional version slot of a release. -/
def optVersionFieldsEq : Option Version → Option Version → Prop
  | none, none => True
  | some a, some b => versionFieldsEq a b
  | _, _ => False

/-- Characters that can occur in a rendered version: segment characters,
dots and the build-metadata separator. -/
def renderCharOk (c : Char) : Bool :=
  isAlnumHyphen c || c = '.' || c = '+'

/-- The shape of a successful `RELEASE_REGEX` match before the group-2
line-feed restriction: the package is nonempty, contains no `@` beyond an
optional leading one, and is followed by a literal `@` and the rest. -/
def GoodCore (s p v : Str) : Prop :=
  s = p ++ '@' :: v ∧ p ≠ [] ∧ (∀ c ∈ p.drop 1, ¬c = '@') ∧
    (p.head? = some '@' → p.drop 1 ≠ [])

/-- The shape of a successful `RELEASE_REGEX` match. -/
def GoodSplit (s p v : Str) : Prop :=
  GoodCore s p v ∧ v.contains '\n' = false

/-! ## Helper lemmas: characters -/

theorem uint32_le_iff {a b : UInt32} : a ≤ b ↔ a.toNat ≤ b.toNat := by
  rw [UInt32.le_def, BitVec.le_def]; exact Iff.rfl

theorem isDigit_iff {c : Char} : c.isDigit = true ↔ 48 ≤ c.toNat ∧ c.toNat ≤ 57 := by
  simp only [Char.isDigit, ge_iff_le, Bool.and_eq_true, decide_eq_true_eq, uint32_le_iff]
  exact Iff.rfl

theorem isLower_iff {c : Char} : c.isLower = true ↔ 97 ≤ c.toNat ∧ c.toNat ≤ 122 := by
  simp only [Char.isLower, ge_iff_le, Bool.and_eq_true, decide_eq_true_eq, uint32_le_iff]
  exact Iff.rfl

theorem isUpper_iff {c : Char} : c.isUpper = true ↔ 65 ≤ c.toNat ∧ c.toNat ≤ 90 := by
  simp only [Char.isUpper, ge_iff_le, Bool.and_eq_true, decide_eq_true_eq, uint32_le_iff]
  exact Iff.rfl

theorem char_eq_toNat {c d : Char} (h : c = d) : c.toNat = d.toNat := h ▸ rfl

theorem char_ne_of_toNat {c d : Char} (h : ¬c.toNat = d.toNat) : ¬c = d :=
  fun he => h (char_eq_toNat he)

theorem rustIsWhitespace_iff {c : Char} :
    rustIsWhitespace c = true ↔
      (9 ≤ c.toNat ∧ c.toNat ≤ 13) ∨ c.toNat = 32 ∨ c.toNat = 133 ∨ c.toNat = 160 ∨
      c.toNat = 5760 ∨ (8192 ≤ c.toNat ∧ c.toNat ≤ 8202) ∨ c.toNat = 8232 ∨
      c.toNat = 8233 ∨ c.toNat = 8239 ∨ c.toNat = 8287 ∨ c.toNat = 12288 := by
  simp only [rustIsWhitespace, Bool.or_eq_true, Bool.and_eq_true, decide_eq_true_eq]
  omega

theorem isAlnumHyphen_ranges {c : Char} (h : isAlnumHyphen c = true) :
    (48 ≤ c.toNat ∧ c.toNat ≤ 57) ∨ (97 ≤ c.toNat ∧ c.toNat ≤ 122) ∨
      (65 ≤ c.toNat ∧ c.toNat ≤ 90) ∨ c.toNat = 45 := by
  simp only [isAlnumHyphen, Bool.or_eq_true, isDigit_iff, isLower_iff, isUpper_iff] at h
  rcases h with ((h | h) | h) | h
  · exact Or.inl h
  · exact Or.inr (Or.inl h)
  · exact Or.inr (Or.inr (Or.inl h))
  · exact Or.inr (Or.inr (Or.inr (show c.toNat = 45 from
      char_eq_toNat (of_decide_eq_true h))))

theorem renderCharOk_ranges {c : Char} (h : renderCharOk c = true) :
    (48 ≤ c.toNat ∧ c.toNat ≤ 57) ∨ (97 ≤ c.toNat ∧ c.toNat ≤ 122) ∨
      (65 ≤ c.toNat ∧ c.toNat ≤ 90) ∨ c.toNat = 45 ∨ c.toNat = 46 ∨ c.toNat = 43 := by
  simp only [renderCharOk, Bool.or_eq_true] at h
  rcases h with (h | h) | h
  · rcases isAlnumHyphen_ranges h with h | h | h | h
    · exact Or.inl h
    · exact Or.inr (Or.inl h)
    · exact Or.inr (Or.inr (Or.inl h))
    · exact Or.inr (Or.inr (Or.inr (Or.inl h)))
  · exact Or.inr (Or.inr (Or.inr (Or.inr (Or.inl (char_eq_toNat (of_decide_eq_true h))))))
  · exact Or.inr (Or.inr (Or.inr (Or.inr (Or.inr (char_eq_toNat (of_decide_eq_true h))))))

/-- A rendered-version character is not a separator, not restricted, not
whitespace, and not an `@`. -/
theorem renderCharOk_not_special {c : Char} (h : renderCharOk c = true) :
    ¬c = '@' ∧ ¬c = '/' ∧ ¬c = '\r' ∧ ¬c = '\n' ∧ rustIsWhitespace c = false := by
  have hr := renderCharOk_ranges h
  refine ⟨char_ne_of_toNat ?_, char_ne_of_toNat ?_, char_ne_of_toNat ?_,
    char_ne_of_toNat ?_, ?_⟩
  · show ¬c.toNat = 64; omega
  · show ¬c.toNat = 47; omega
  · show ¬c.toNat = 13; omega
  · show ¬c.toNat = 10; omega
  · rw [← Bool.not_eq_true, rustIsWhitespace_iff]; omega

theorem isAlnumHyphen_renderCharOk {c : Char} (h : isAlnumHyphen c = true) :
    renderCharOk c = true := by
  simp only [renderCharOk, Bool.or_eq_true]; exact Or.inl (Or.inl h)

theorem isDigit_isAlnumHyphen {c : Char} (h : c.isDigit = true) :
    isAlnumHyphen c = true := by
  simp only [isAlnumHyphen, Bool.or_eq_true]; exact Or.inl (Or.inl (Or.inl h))

theorem isLower_isAlnumHyphen {c : Char} (h : c.isLower = true) :
    isAlnumHyphen c = true := by
  simp only [isAlnumHyphen, Bool.or_eq_true]; exact Or.inl (Or.inl (Or.inr h))

theorem isLower_not_digit {c : Char} (h : c.isLower = true) : c.isDigit = false := by
  rw [← Bool.not_eq_true, isDigit_iff]
  have := isLower_iff.mp h
  omega

theorem isLower_ne_dot {c : Char} (h : c.isLower = true) : ¬c = '.' := by
  have := isLower_iff.mp h
  exact char_ne_of_toNat (by show ¬c.toNat = 46; omega)

theorem isHexChar_ascii {c : Char} (h : isHexChar c = true) : c.toNat < 128 := by
  simp only [isHexChar, Bool.or_eq_true, Bool.and_eq_true, decide_eq_true_eq] at h
  rcases h with (h | ⟨h1, h2⟩) | ⟨h1, h2⟩
  · have := isDigit_iff.mp h; omega
  · rw [Char.le_def, uint32_le_iff] at h2
    have : c.toNat ≤ 102 := h2
    omega
  · rw [Char.le_def, uint32_le_iff] at h2
    have : c.toNat ≤ 70 := h2
    omega

theorem utf8Size_of_ascii {c : Char} (h : c.toNat < 128) : c.utf8Size = 1 := by
  have hb : c.val.toBitVec.toNat < 128 := h
  have hle : c.val ≤ UInt32.ofNatCore 127 Char.utf8Size.proof_1 := by
    refine UInt32.le_def.mpr (BitVec.le_def.mpr ?_)
    simpa using by omega
  simp only [Char.utf8Size]
  rw [if_pos hle]

/-! ## Helper lemmas: lists, UTF-8 length, trimming -/

theorem utf8Len_append (A B : Str) : utf8Len (A ++ B) = utf8Len A + utf8Len B := by
  simp [utf8Len]

theorem utf8Len_eq_length {s : Str} (h : ∀ c ∈ s, c.toNat < 128) :
    utf8Len s = s.length := by
  induction s with
  | nil => rfl
  | cons a l ih =>
    have : utf8Len (a :: l) = a.utf8Size + utf8Len l := by simp [utf8Len]
    rw [this, utf8Size_of_ascii (h a (by simp)), ih fun c hc => h c (by simp [hc])]
    simp only [List.length_cons]
    omega

theorem takeWhile_append_eq {p : Char → Bool} {A B : Str}
    (hA : ∀ c ∈ A, p c = true) (hB : ∀ c, B.head? = some c → p c = false) :
    (A ++ B).takeWhile p = A ∧ (A ++ B).dropWhile p = B := by
  induction A with
  | nil =>
    cases B with
    | nil => exact ⟨rfl, rfl⟩
    | cons b B' =>
      have hb := hB b rfl
      constructor
      · simp [List.takeWhile_cons, hb]
      · simp [List.dropWhile_cons, hb]
  | cons a A' ih =>
    have ha := hA a (by simp)
    have ih' := ih fun c hc => hA c (by simp [hc])
    constructor
    · simp only [List.cons_append, List.takeWhile_cons, ha, if_true]
      rw [ih'.1]
    · simp only [List.cons_append, List.dropWhile_cons, ha, if_true]
      exact ih'.2

theorem takeWhile_eq_self {p : Char → Bool} {l : Str} (h : ∀ c ∈ l, p c = true) :
    l.takeWhile p = l ∧ l.dropWhile p = [] := by
  have := takeWhile_append_eq (p := p) (A := l) (B := []) h (by intro c hc; cases hc)
  simpa using this

theorem dropWhile_head?_false {p : Char → Bool} {l : Str} {c : Char}
    (h : (l.dropWhile p).head? = some c) : p c = false := by
  induction l with
  | nil => simp [List.dropWhile] at h
  | cons a l ih =>
    rw [List.dropWhile_cons] at h
    by_cases hp : p a
    · rw [if_pos hp] at h; exact ih h
    · rw [if_neg hp] at h
      simp only [List.head?_cons, Option.some.injEq] at h
      subst h
      exact Bool.eq_false_iff.mpr hp

theorem dropWhile_eq_self_of_head {p : Char → Bool} {l : Str}
    (h : ∀ c, l.head? = some c → p c = false) : l.dropWhile p = l := by
  cases l with
  | nil => rfl
  | cons a l =>
    rw [List.dropWhile_cons, h a rfl]
    simp

theorem getLast?_dropWhile (p : Char → Bool) (l : Str) :
    l.dropWhile p = [] ∨ (l.dropWhile p).getLast? = l.getLast? := by
  induction l with
  | nil => exact Or.inl rfl
  | cons a l ih =>
    rw [List.dropWhile_cons]
    by_cases hp : p a
    · rw [if_pos hp]
      rcases ih with h | h
      · exact Or.inl h
      · by_cases hl : l.dropWhile p = []
        · exact Or.inl hl
        · right
          rw [h]
          have hlne : l ≠ [] := by
            intro he; subst he; exact hl rfl
          show l.getLast? = ([a] ++ l).getLast?
          rw [List.getLast?_append_of_ne_nil [a] hlne]
    · rw [if_neg hp]
      exact Or.inr rfl

theorem getLast?_mem' {a : Char} {l : Str} (h : l.getLast? = some a) : a ∈ l := by
  have : a ∈ l.getLast? := h ▸ rfl
  obtain ⟨hne, heq⟩ := List.mem_getLast?_eq_getLast this
  exact heq ▸ List.getLast_mem hne

theorem trim_getLast?_not_ws {s : Str} {c : Char} (h : (trim s).getLast? = some c) :
    rustIsWhitespace c = false := by
  unfold trim at h
  rw [List.getLast?_reverse] at h
  exact dropWhile_head?_false h

theorem trim_head?_not_ws {s : Str} {c : Char} (h : (trim s).head? = some c) :
    rustIsWhitespace c = false := by
  unfold trim at h
  rw [List.head?_reverse] at h
  rcases getLast?_dropWhile rustIsWhitespace (s.dropWhile rustIsWhitespace).reverse with he | he
  · rw [he] at h; simp at h
  · rw [he, List.getLast?_reverse] at h
    exact dropWhile_head?_false h

theorem trim_eq_self {s : Str}
    (h1 : ∀ c, s.head? = some c → rustIsWhitespace c = false)
    (h2 : ∀ c, s.getLast? = some c → rustIsWhitespace c = false) :
    trim s = s := by
  unfold trim
  rw [dropWhile_eq_self_of_head h1]
  rw [dropWhile_eq_self_of_head fun c hc => h2 c (by rwa [List.head?_reverse] at hc)]
  exact List.reverse_reverse s

theorem trim_trim (s : Str) : trim (trim s) = trim s :=
  trim_eq_self (fun _ h => trim_head?_not_ws h) (fun _ h => trim_getLast?_not_ws h)

theorem trim_of_all_ws {s : Str} (h : s.all rustIsWhitespace = true) : trim s = [] := by
  unfold trim
  rw [(takeWhile_eq_self (l := s) (p := rustIsWhitespace) fun c hc => by
    rw [List.all_eq_true] at h; exact h c hc).2]
  rfl

theorem Release.parse_trim (s : Str) : Release.parse (trim s) = Release.parse s := by
  unfold Release.parse
  rw [trim_trim]

/-! ## Helper lemmas: the release split -/

theorem splitAtFirstAt_some {s p v : Str} (h : splitAtFirstAt s = some (p, v)) :
    s = p ++ '@' :: v ∧ ∀ c ∈ p, ¬c = '@' := by
  induction s generalizing p v with
  | nil => simp [splitAtFirstAt] at h
  | cons c rest ih =>
    rw [splitAtFirstAt] at h
    by_cases hc : c = '@'
    · rw [if_pos hc] at h
      simp only [Option.some.injEq, Prod.mk.injEq] at h
      obtain ⟨hp, hv⟩ := h
      subst hp; subst hv; subst hc
      exact ⟨rfl, by simp⟩
    · rw [if_neg hc] at h
      cases hsp : splitAtFirstAt rest with
      | none => rw [hsp] at h; simp at h
      | some pv =>
        rw [hsp] at h
        simp only [Option.map_some', Option.some.injEq, Prod.mk.injEq] at h
        obtain ⟨e1, e2⟩ := ih (p := pv.1) (v := pv.2) (by rw [hsp])
        obtain ⟨hp, hv⟩ := h
        subst hp; subst hv
        refine ⟨by simp [e1], ?_⟩
        intro d hd
        rcases List.mem_cons.mp hd with rfl | hd
        · exact hc
        · exact e2 d hd

theorem splitAtFirstAt_complete {p v : Str} (hp : ∀ c ∈ p, ¬c = '@') :
    splitAtFirstAt (p ++ '@' :: v) = some (p, v) := by
  induction p with
  | nil => simp [splitAtFirstAt]
  | cons c p' ih =>
    have hc : ¬c = '@' := hp c (by simp)
    rw [List.cons_append, splitAtFirstAt, if_neg hc,
      ih fun d hd => hp d (by simp [hd])]
    rfl

theorem releaseCore_eq_some_iff {s p v : Str} :
    releaseCore s = some (p, v) ↔ GoodCore s p v := by
  constructor
  · intro h
    cases s with
    | nil => simp [releaseCore] at h
    | cons c rest =>
      rw [releaseCore] at h
      by_cases hc : c = '@'
      · rw [if_pos hc] at h
        cases hsp : splitAtFirstAt rest with
        | none => rw [hsp] at h; simp at h
        | some pv =>
          rw [hsp] at h
          simp only [Option.some_bind] at h
          by_cases hemp : pv.1 = []
          · rw [if_pos hemp] at h; simp at h
          · rw [if_neg hemp] at h
            simp only [Option.some.injEq, Prod.mk.injEq] at h
            obtain ⟨hp, hv⟩ := h
            obtain ⟨e1, e2⟩ := splitAtFirstAt_some
              (s := rest) (p := pv.1) (v := pv.2) (by rw [hsp])
            refine ⟨?_, ?_, ?_, ?_⟩
            · rw [← hp, ← hv, e1, hc]; rfl
            · rw [← hp]; simp
            · rw [← hp]
              intro d hd
              exact e2 d hd
            · intro _
              rw [← hp]
              simpa using hemp
      · rw [if_neg hc] at h
        obtain ⟨e1, e2⟩ := splitAtFirstAt_some h
        have hpne : p ≠ [] := by
          intro he
          subst he
          rw [List.nil_append] at e1
          exact hc (by simpa using congrArg List.head? e1)
        refine ⟨e1, hpne, ?_, ?_⟩
        · intro d hd
          exact e2 d (List.mem_of_mem_drop hd)
        · intro hhead
          cases p with
          | nil => exact absurd rfl hpne
          | cons q p' =>
            exfalso
            have hq : q = '@' := by
              simpa using hhead
            exact e2 q (by simp) hq
  · intro hg
    obtain ⟨hs, hne, hdrop, hhead⟩ := hg
    cases p with
    | nil => exact absurd rfl hne
    | cons q p' =>
      subst hs
      rw [List.cons_append, releaseCore]
      by_cases hq : q = '@'
      · subst hq
        rw [if_pos rfl]
        have hp' : ∀ c ∈ p', ¬c = '@' := fun c hc => hdrop c hc
        rw [splitAtFirstAt_complete hp']
        have hne' : p' ≠ [] := hhead rfl
        simp [hne']
      · rw [if_neg hq]
        have hall : ∀ c ∈ q :: p', ¬c = '@' := by
          intro d hd
          rcases List.mem_cons.mp hd with rfl | hd
          · exact hq
          · exact hdrop d hd
        exact splitAtFirstAt_complete (v := v) hall

theorem releaseCaptures_eq_some_iff {s p v : Str} :
    releaseCaptures s = some (p, v) ↔ GoodSplit s p v := by
  unfold releaseCaptures GoodSplit
  constructor
  · intro h
    cases hc : releaseCore s with
    | none => rw [hc] at h; cases h
    | some pv =>
      rw [hc] at h
      simp only [Option.some_bind] at h
      by_cases hnl : pv.2.contains '\n'
      · rw [if_pos hnl] at h; cases h
      · rw [if_neg hnl] at h
        injection h with h
        subst h
        exact ⟨releaseCore_eq_some_iff.mp hc, by simpa using hnl⟩
  · intro hg
    obtain ⟨hgood, hv⟩ := hg
    have hcore := releaseCore_eq_some_iff.mpr hgood
    rw [hcore]
    simp only [Option.some_bind]
    have hv' : ¬List.contains (p, v).2 '\n' = true := by
      intro hcontra
      rw [show ((p, v).2 : Str) = v from rfl, hv] at hcontra
      cases hcontra
    rw [if_neg hv']

/-! ## Helper lemmas: dot-splitting -/

theorem splitOnDot_ne_nil (t : Str) : splitOnDot t ≠ [] := by
  cases t with
  | nil => simp [splitOnDot]
  | cons c rest =>
    rw [splitOnDot]
    by_cases hc : c = '.'
    · simp [hc]
    · rw [if_neg hc]
      cases splitOnDot rest <;> simp

theorem splitOnDot_cons_dot (t : Str) : splitOnDot ('.' :: t) = [] :: splitOnDot t := by
  rw [splitOnDot]
  simp

theorem splitOnDot_cons_ne {c : Char} (hc : ¬c = '.') (t : Str) {p : Str} {ps : List Str}
    (h : splitOnDot t = p :: ps) : splitOnDot (c :: t) = (c :: p) :: ps := by
  rw [splitOnDot, if_neg hc, h]

theorem splitOnDot_dest (t : Str) : ∃ p ps, splitOnDot t = p :: ps := by
  cases hsp : splitOnDot t with
  | nil => exact absurd hsp (splitOnDot_ne_nil t)
  | cons p ps => exact ⟨p, ps, rfl⟩

theorem splitOnDot_no_dot {t : Str} (h : ∀ c ∈ t, ¬c = '.') : splitOnDot t = [t] := by
  induction t with
  | nil => rfl
  | cons c rest ih =>
    rw [splitOnDot, if_neg (h c (by simp)), ih fun d hd => h d (by simp [hd])]

theorem splitOnDot_append {A B : Str} (hA : ∀ c ∈ A, ¬c = '.') :
    splitOnDot (A ++ '.' :: B) = A :: splitOnDot B := by
  induction A with
  | nil => simpa using splitOnDot_cons_dot B
  | cons c A' ih =>
    rw [List.cons_append, splitOnDot, if_neg (hA c (by simp)),
      ih fun d hd => hA d (by simp [hd])]

theorem mem_splitOnDot {t : Str} {c : Char} (h : c ∈ t) :
    c = '.' ∨ ∃ p ∈ splitOnDot t, c ∈ p := by
  induction t with
  | nil => cases h
  | cons a rest ih =>
    by_cases ha : a = '.'
    · subst ha
      rcases List.mem_cons.mp h with rfl | h'
      · exact Or.inl rfl
      · rcases ih h' with h'' | ⟨p, hp, hcp⟩
        · exact Or.inl h''
        · right
          refine ⟨p, ?_, hcp⟩
          rw [splitOnDot_cons_dot]
          exact List.mem_cons_of_mem _ hp
    · obtain ⟨p, ps, hps⟩ := splitOnDot_dest rest
      rcases List.mem_cons.mp h with rfl | h'
      · right
        refine ⟨c :: p, ?_, by simp⟩
        rw [splitOnDot_cons_ne ha rest hps]
        simp
      · rcases ih h' with h'' | ⟨q, hq, hcq⟩
        · exact Or.inl h''
        · right
          rw [hps] at hq
          rcases List.mem_cons.mp hq with rfl | hq'
          · refine ⟨a :: q, ?_, List.mem_cons_of_mem _ hcq⟩
            rw [splitOnDot_cons_ne ha rest hps]
            simp
          · refine ⟨q, ?_, hcq⟩
            rw [splitOnDot_cons_ne ha rest hps]
            exact List.mem_cons_of_mem _ hq'

/-! ## Helper lemmas: decimal digits -/

theorem digitChar_spec {d : Nat} (h : d < 10) :
    (Nat.digitChar d).isDigit = true ∧ (Nat.digitChar d).toNat - 48 = d ∧
      (d ≠ 0 → ¬Nat.digitChar d = '0') := by
  interval_cases d <;> exact ⟨by decide, by decide, by decide⟩

theorem digitsToNat_append_singleton (A : Str) (c : Char) :
    digitsToNat (A ++ [c]) = 10 * digitsToNat A + (c.toNat - 48) := by
  unfold digitsToNat
  rw [List.foldl_append]
  rfl

theorem digitsToNat_rev_map {L : List Nat} (h : ∀ d ∈ L, d < 10) :
    digitsToNat ((L.map Nat.digitChar).reverse) = Nat.ofDigits 10 L := by
  induction L with
  | nil => simp [digitsToNat, Nat.ofDigits_nil]
  | cons d L' ih =>
    rw [List.map_cons, List.reverse_cons, digitsToNat_append_singleton,
      ih fun e he => h e (by simp [he]), Nat.ofDigits_cons,
      (digitChar_spec (h d (by simp))).2.1]
    ring

theorem toDigitsCore_eq : ∀ n : Nat, n ≠ 0 → ∀ (fuel : Nat) (acc : Str), n + 1 ≤ fuel →
    Nat.toDigitsCore 10 fuel n acc = (Nat.digits 10 n).reverse.map Nat.digitChar ++ acc := by
  intro n
  induction n using Nat.strong_induction_on with
  | _ n ih =>
    intro hn fuel acc hf
    obtain ⟨fuel', rfl⟩ : ∃ f, fuel = f + 1 := ⟨fuel - 1, by omega⟩
    simp only [Nat.toDigitsCore]
    by_cases h10 : n / 10 = 0
    · rw [if_pos h10]
      have hn10 : n < 10 := by omega
      rw [Nat.digits_def' (by norm_num : (1 : ℕ) < 10) (Nat.pos_of_ne_zero hn), h10,
        Nat.digits_zero]
      simp [Nat.mod_eq_of_lt hn10]
    · rw [if_neg h10]
      have hlt : n / 10 < n := Nat.div_lt_self (Nat.pos_of_ne_zero hn) (by norm_num)
      rw [ih (n / 10) hlt h10 fuel' (Nat.digitChar (n % 10) :: acc) (by omega),
        Nat.digits_def' (by norm_num : (1 : ℕ) < 10) (Nat.pos_of_ne_zero hn),
        List.reverse_cons, List.map_append]
      simp

theorem natDigits_eq (n : Nat) :
    natDigits n = if n = 0 then ['0'] else (Nat.digits 10 n).reverse.map Nat.digitChar := by
  by_cases h : n = 0
  · subst h; rfl
  · rw [if_neg h]
    show Nat.toDigitsCore 10 (n + 1) n [] = _
    rw [toDigitsCore_eq n h (n + 1) [] (by omega)]
    simp

theorem digitsToNat_natDigits (n : Nat) : digitsToNat (natDigits n) = n := by
  rw [natDigits_eq]
  by_cases h : n = 0
  · rw [if_pos h, h]
    decide
  · rw [if_neg h, List.map_reverse,
      digitsToNat_rev_map fun d hd => Nat.digits_lt_base (by norm_num) hd]
    exact Nat.ofDigits_digits 10 n

theorem natDigits_ne_nil (n : Nat) : natDigits n ≠ [] := by
  rw [natDigits_eq]
  by_cases h : n = 0
  · simp [h]
  · rw [if_neg h]
    simpa using Nat.digits_ne_nil_iff_ne_zero.mpr h

theorem natDigits_all_digit {n : Nat} : ∀ c ∈ natDigits n, c.isDigit = true := by
  rw [natDigits_eq]
  by_cases h : n = 0
  · rw [if_pos h]
    intro c hc
    simp only [List.mem_singleton] at hc
    subst hc
    decide
  · rw [if_neg h]
    intro c hc
    simp only [List.mem_map, List.mem_reverse] at hc
    obtain ⟨d, hd, rfl⟩ := hc
    exact (digitChar_spec (Nat.digits_lt_base (by norm_num) hd)).1

theorem natDigits_head_ne_zero {n : Nat} (hn : n ≠ 0) :
    ∀ c, (natDigits n).head? = some c → ¬c = '0' := by
  rw [natDigits_eq, if_neg hn]
  intro c hc
  have hne : Nat.digits 10 n ≠ [] := Nat.digits_ne_nil_iff_ne_zero.mpr hn
  rw [List.head?_map, List.head?_reverse, List.getLast?_eq_getLast _ hne] at hc
  simp only [Option.map_some', Option.some.injEq] at hc
  subst hc
  have hlt : (Nat.digits 10 n).getLast hne < 10 :=
    Nat.digits_lt_base (by norm_num) (List.getLast_mem hne)
  have hz : (Nat.digits 10 n).getLast hne ≠ 0 := Nat.getLast_digit_ne_zero 10 hn
  exact (digitChar_spec hlt).2.2 hz

theorem u64val_lt (s : Str) : u64val s < 2 ^ 64 := by
  show (if digitsToNat s < 2 ^ 64 then digitsToNat s else 0) < 2 ^ 64
  split
  · assumption
  · norm_num

theorem u64val_natDigits {m : Nat} (h : m < 2 ^ 64) : u64val (natDigits m) = m := by
  unfold u64val
  rw [digitsToNat_natDigits, if_pos h]

/-! ## Helper lemmas: segments and pre-release/build text -/

theorem segOk_all_alnumHyphen {t : Str} (h : segOk t = true) :
    ∀ c ∈ t, isAlnumHyphen c = true := by
  intro c hc
  simp only [segOk, Bool.or_eq_true, Bool.and_eq_true, List.all_eq_true,
    decide_eq_true_eq, Bool.not_eq_true'] at h
  rcases h with (h | ⟨⟨-, hall⟩, -⟩) | ⟨⟨-, hall⟩, -⟩
  · subst h
    simp only [List.mem_singleton] at hc
    subst hc
    decide
  · exact isDigit_isAlnumHyphen (hall c hc)
  · exact hall c hc

theorem preTextOk_cons_lower {c : Char} {t : Str} (hc : c.isLower = true)
    (ht : preTextOk t = true) : preTextOk (c :: t) = true := by
  obtain ⟨p0, ps, hps⟩ := splitOnDot_dest t
  unfold preTextOk at ht ⊢
  rw [hps] at ht
  rw [splitOnDot_cons_ne (isLower_ne_dot hc) t hps]
  simp only [Bool.and_eq_true] at ht ⊢
  obtain ⟨h0, hrest⟩ := ht
  refine ⟨?_, hrest⟩
  have halnum : ∀ d ∈ p0, isAlnumHyphen d = true := by
    intro d hd
    rcases (Bool.or_eq_true _ _) ▸ h0 with he | hs
    · rw [List.isEmpty_iff] at he
      subst he
      cases hd
    · exact segOk_all_alnumHyphen hs d hd
  have hseg : segOk (c :: p0) = true := by
    simp only [segOk, Bool.or_eq_true, Bool.and_eq_true, List.all_eq_true,
      List.any_eq_true, Bool.not_eq_true']
    right
    refine ⟨⟨?_, ?_⟩, ⟨c, by simp, isLower_not_digit hc⟩⟩
    · simp [List.isEmpty]
    · intro d hd
      rcases List.mem_cons.mp hd with rfl | hd
      · exact isLower_isAlnumHyphen hc
      · exact halnum d hd
  simp [hseg]

theorem preTextOk_chars {t : Str} (h : preTextOk t = true) :
    ∀ c ∈ t, renderCharOk c = true := by
  intro c hc
  rcases mem_splitOnDot hc with rfl | ⟨p, hp, hcp⟩
  · decide
  · obtain ⟨p0, ps, hps⟩ := splitOnDot_dest t
    unfold preTextOk at h
    rw [hps] at h
    simp only [Bool.and_eq_true, List.all_eq_true] at h
    rw [hps] at hp
    rcases List.mem_cons.mp hp with rfl | hp'
    · rcases Bool.or_eq_true _ _ ▸ h.1 with he | hs
      · rw [List.isEmpty_iff] at he
        subst he
        cases hcp
      · exact isAlnumHyphen_renderCharOk (segOk_all_alnumHyphen hs c hcp)
    · exact isAlnumHyphen_renderCharOk (segOk_all_alnumHyphen (h.2 p hp') c hcp)

theorem buildTextOk_chars {t : Str} (h : buildTextOk t = true) :
    ∀ c ∈ t, renderCharOk c = true := by
  intro c hc
  rcases mem_splitOnDot hc with rfl | ⟨p, hp, hcp⟩
  · decide
  · unfold buildTextOk at h
    simp only [List.all_eq_true, Bool.and_eq_true] at h
    exact isAlnumHyphen_renderCharOk ((h p hp).2 c hcp)

/-! ## Helper lemmas: parsing rendered components -/

theorem numGroup_natDigits {n : Nat} {rest : Str}
    (hrest : ∀ c, rest.head? = some c → c.isDigit = false) :
    numGroup (natDigits n ++ rest) = some (natDigits n, rest) := by
  by_cases h : n = 0
  · subst h
    rw [show natDigits 0 = ['0'] from rfl]
    cases rest with
    | nil => rfl
    | cons d rest' =>
      have hd := hrest d rfl
      simp [numGroup, hd]
  · obtain ⟨c, cs, hcs⟩ : ∃ c cs, natDigits n = c :: cs := by
      cases hnd : natDigits n with
      | nil => exact absurd hnd (natDigits_ne_nil n)
      | cons c cs => exact ⟨c, cs, rfl⟩
    have hcd : c.isDigit = true := natDigits_all_digit c (by rw [hcs]; simp)
    have hc0 : ¬c = '0' := natDigits_head_ne_zero h c (by rw [hcs]; rfl)
    have hcsd : ∀ d ∈ cs, d.isDigit = true := fun d hd =>
      natDigits_all_digit d (by rw [hcs]; exact List.mem_cons_of_mem _ hd)
    have htw := takeWhile_append_eq (p := Char.isDigit) (A := cs) (B := rest) hcsd hrest
    rw [hcs, List.cons_append]
    simp only [numGroup, if_neg hc0, hcd, if_true, takeDigits, htw.1, htw.2]

theorem dotNum_skip {s : Str} (h : ∀ c, s.head? = some c → ¬c = '.') :
    dotNum s = some (none, s) := by
  cases s with
  | nil => rfl
  | cons c rest => simp [dotNum, h c rfl]

theorem dotNum_render {n : Nat} {rest : Str}
    (hrest : ∀ c, rest.head? = some c → c.isDigit = false) :
    dotNum ('.' :: (natDigits n ++ rest)) = some (some (natDigits n), rest) := by
  have hng := numGroup_natDigits (n := n) hrest
  simp [dotNum, hng]

theorem preGroup_skip {s : Str} (h : ∀ c, s.head? = some c → (¬c = '-') ∧ c.isLower = false) :
    preGroup s = some (none, s) := by
  cases s with
  | nil => rfl
  | cons c rest =>
    have := h c rfl
    simp [preGroup, this.1, this.2]

theorem preGroup_render {pre bs : Str} (hok : preTextOk pre = true)
    (hplus : ∀ c ∈ pre, ¬c = '+') (hbs : ∀ c, bs.head? = some c → c = '+') :
    preGroup ('-' :: (pre ++ bs)) = some (some ('-' :: pre), bs) := by
  have htp := takeWhile_append_eq (p := fun c => !(c = '+')) (A := pre) (B := bs)
    (fun c hc => by simp [hplus c hc]) (fun c hc => by simp [hbs c hc])
  have h1 : takeUntilPlus (pre ++ bs) = (pre, bs) := by
    unfold takeUntilPlus
    rw [htp.1, htp.2]
  simp [preGroup, h1, hok]

theorem buildGroup_render_some {bc : Str} (h : buildTextOk bc = true) :
    buildGroup ('+' :: bc) = some (some bc) := by
  simp [buildGroup, h]

/-! ## Helper lemmas: inversion of a successful version parse -/

theorem versionCaptures_inv {s : Str} {caps : RawCaps} (h : versionCaptures s = some caps) :
    ∃ r1 r2 r3 r4, numGroup s = some (caps.major, r1) ∧ dotNum r1 = some (caps.minor, r2) ∧
      dotNum r2 = some (caps.patch, r3) ∧ preGroup r3 = some (caps.prerelease, r4) ∧
      buildGroup r4 = some caps.build_code := by
  unfold versionCaptures at h
  split at h
  · cases h
  next maj r1 h1 =>
    split at h
    · cases h
    next mn r2 h2 =>
      split at h
      · cases h
      next pt r3 h3 =>
        split at h
        · cases h
        next pr r4 h4 =>
          split at h
          · cases h
          next bc h5 =>
            injection h with h
            subst h
            exact ⟨r1, r2, r3, r4, h1, h2, h3, h4, h5⟩

theorem dotNum_inv {s : Str} {mo : Option Str} {r : Str} (h : dotNum s = some (mo, r)) :
    (mo = none ∧ r = s ∧ ∀ c, s.head? = some c → ¬c = '.') ∨ ∃ ds, mo = some ds := by
  cases s with
  | nil =>
    simp only [dotNum, Option.some.injEq, Prod.mk.injEq] at h
    exact Or.inl ⟨h.1.symm, h.2.symm, by intro c hc; cases hc⟩
  | cons c rest =>
    simp only [dotNum] at h
    by_cases hc : c = '.'
    · rw [if_pos hc] at h
      cases hng : numGroup rest with
      | none => rw [hng] at h; cases h
      | some dr =>
        rw [hng] at h
        simp only [Option.some.injEq, Prod.mk.injEq] at h
        exact Or.inr ⟨dr.1, h.1.symm⟩
    · rw [if_neg hc] at h
      simp only [Option.some.injEq, Prod.mk.injEq] at h
      refine Or.inl ⟨h.1.symm, h.2.symm, ?_⟩
      intro d hd
      rw [List.head?_cons, Option.some.injEq] at hd
      subst hd
      exact hc

theorem preGroup_inv {s : Str} {pr : Option Str} {r : Str} (h : preGroup s = some (pr, r)) :
    pr = none ∨ ∃ c pt, pr = some (c :: pt) ∧ (c = '-' ∨ c.isLower = true) ∧
      preTextOk pt = true ∧ ∀ d ∈ pt, ¬d = '+' := by
  cases s with
  | nil =>
    simp only [preGroup, Option.some.injEq, Prod.mk.injEq] at h
    exact Or.inl h.1.symm
  | cons c rest =>
    simp only [preGroup] at h
    by_cases hc : (c = '-' || c.isLower) = true
    · rw [if_pos hc] at h
      by_cases hok : preTextOk (takeUntilPlus rest).1 = true
      · rw [if_pos hok] at h
        simp only [Option.some.injEq, Prod.mk.injEq] at h
        right
        refine ⟨c, (takeUntilPlus rest).1, h.1.symm, ?_, hok, ?_⟩
        · rcases Bool.or_eq_true _ _ ▸ hc with h' | h'
          · exact Or.inl (of_decide_eq_true h')
          · exact Or.inr h'
        · intro d hd
          have := List.mem_takeWhile_imp hd
          simpa using this
      · rw [if_neg hok] at h; cases h
    · rw [if_neg hc] at h
      simp only [Option.some.injEq, Prod.mk.injEq] at h
      exact Or.inl h.1.symm

theorem buildGroup_inv {s : Str} {bc : Option Str} (h : buildGroup s = some bc) :
    bc = none ∨ ∃ t, bc = some t ∧ buildTextOk t = true := by
  cases s with
  | nil =>
    simp only [buildGroup, Option.some.injEq] at h
    exact Or.inl h.symm
  | cons c rest =>
    simp only [buildGroup] at h
    by_cases hc : c = '+'
    · rw [if_pos hc] at h
      by_cases hok : buildTextOk rest = true
      · rw [if_pos hok] at h
        injection h with h
        exact Or.inr ⟨rest, h.symm, hok⟩
      · rw [if_neg hok] at h; cases h
    · rw [if_neg hc] at h; cases h

theorem Version.parse_ok_iff {s : Str} {v : Version} :
    Version.parse s = .ok v ↔ ∃ caps, versionCaptures s = some caps ∧
      v = ⟨s, u64val caps.major, (caps.minor.map u64val).getD 0,
        (caps.patch.map u64val).getD 0, (caps.prerelease.map stripLeadingDash).getD [],
        caps.build_code.getD [],
        1 + (if caps.minor.isSome then 1 else 0) + (if caps.patch.isSome then 1 else 0)⟩ := by
  unfold Version.parse
  cases h : versionCaptures s with
  | none =>
    simp only [reduceCtorEq, false_iff, not_exists, not_and]
    intro caps hc
    cases hc
  | some caps =>
    constructor
    · intro he
      injection he with he
      exact ⟨caps, rfl, he.symm⟩
    · intro ⟨caps', hc, hv⟩
      injection hc with hc
      subst hc
      rw [hv]

theorem Version.parse_inv {s : Str} {v : Version} (h : Version.parse s = .ok v) :
    v.raw = s ∧ v.major < 2 ^ 64 ∧ v.minor < 2 ^ 64 ∧ v.patch < 2 ^ 64 ∧
      ((v.components = 1 ∧ v.minor = 0 ∧ v.patch = 0) ∨
        (v.components = 2 ∧ v.patch = 0) ∨ v.components = 3) ∧
      (v.pre = [] ∨ (preTextOk v.pre = true ∧ ∀ d ∈ v.pre, ¬d = '+')) ∧
      (v.build_code = [] ∨ buildTextOk v.build_code = true) := by
  obtain ⟨caps, hcaps, rfl⟩ := Version.parse_ok_iff.mp h
  obtain ⟨r1, r2, r3, r4, h1, h2, h3, h4, h5⟩ := versionCaptures_inv hcaps
  refine ⟨rfl, u64val_lt _, ?_, ?_, ?_, ?_, ?_⟩
  · cases hm : caps.minor with
    | none => show ((none : Option Str).map u64val).getD 0 < 2 ^ 64; norm_num
    | some m => show ((some m).map u64val).getD 0 < 2 ^ 64; simpa using u64val_lt m
  · cases hp : caps.patch with
    | none => show ((none : Option Str).map u64val).getD 0 < 2 ^ 64; norm_num
    | some p => show ((some p).map u64val).getD 0 < 2 ^ 64; simpa using u64val_lt p
  · cases hm : caps.minor with
    | none =>
      have hpt : caps.patch = none := by
        rw [hm] at h2
        rcases dotNum_inv h2 with ⟨-, hr, hhead⟩ | ⟨ds, hds⟩
        · rw [hr, dotNum_skip hhead] at h3
          injection h3 with h3
          exact (congrArg Prod.fst h3).symm
        · cases hds
      left
      simp [hm, hpt]
    | some m =>
      cases hp : caps.patch with
      | none =>
        right; left
        simp [hm, hp]
      | some p =>
        right; right
        simp [hm, hp]
  · cases hpr : caps.prerelease with
    | none => left; simp
    | some pr =>
      rw [hpr] at h4
      rcases preGroup_inv h4 with hnone | ⟨c, pt, hsome, hcl, hok, hplus⟩
      · cases hnone
      · injection hsome with hsome
        subst hsome
        right
        show preTextOk (((some (c :: pt)).map stripLeadingDash).getD []) = true ∧
          ∀ d ∈ ((some (c :: pt)).map stripLeadingDash).getD [], ¬d = '+'
        simp only [Option.map_some', Option.getD_some]
        by_cases hdash : c = '-'
        · subst hdash
          rw [show stripLeadingDash ('-' :: pt) = pt by simp [stripLeadingDash]]
          exact ⟨hok, hplus⟩
        · have hlow : c.isLower = true := hcl.resolve_left hdash
          rw [show stripLeadingDash (c :: pt) = c :: pt by simp [stripLeadingDash, hdash]]
          refine ⟨preTextOk_cons_lower hlow hok, ?_⟩
          intro d hd
          rcases List.mem_cons.mp hd with rfl | hd
          · have := isLower_iff.mp hlow
            exact char_ne_of_toNat (by show ¬d.toNat = 43; omega)
          · exact hplus d hd
  · cases hbc : caps.build_code with
    | none => left; simp
    | some bc =>
      rw [hbc] at h5
      rcases buildGroup_inv h5 with hnone | ⟨t, hsome, hok⟩
      · cases hnone
      · injection hsome with hsome
        subst hsome
        right
        simpa using hok

/-- Rendering the optional pre-release and build parts produces a tail that
the pre-release and build stages of the grammar parse back exactly. -/
theorem tail_assembly {pre bc : Str}
    (hpre : pre = [] ∨ (preTextOk pre = true ∧ ∀ d ∈ pre, ¬d = '+'))
    (hbc : bc = [] ∨ buildTextOk bc = true) :
    preGroup ((if pre.isEmpty then [] else '-' :: pre) ++
        (if bc.isEmpty then [] else '+' :: bc)) =
      some (if pre.isEmpty then none else some ('-' :: pre),
        if bc.isEmpty then [] else '+' :: bc) ∧
    buildGroup (if bc.isEmpty then [] else '+' :: bc) =
      some (if bc.isEmpty then none else some bc) ∧
    ∀ c, ((if pre.isEmpty then [] else '-' :: pre) ++
        (if bc.isEmpty then [] else '+' :: bc)).head? = some c →
      (¬c = '.') ∧ c.isDigit = false := by
  have hbsHead : ∀ c, (if bc.isEmpty then ([] : Str) else '+' :: bc).head? = some c →
      c = '+' := by
    intro c hc
    by_cases hbe : bc = []
    · rw [show List.isEmpty bc = true by simp [hbe]] at hc
      rw [if_pos rfl] at hc
      cases hc
    · rw [show List.isEmpty bc = false by simp [hbe]] at hc
      simp only [Bool.false_eq_true, if_false, List.head?_cons, Option.some.injEq] at hc
      exact hc.symm
  have hbuild : buildGroup (if bc.isEmpty then [] else '+' :: bc) =
      some (if bc.isEmpty then none else some bc) := by
    by_cases hbe : bc = []
    · subst hbe; rfl
    · rw [show List.isEmpty bc = false by simp [hbe]]
      simp only [Bool.false_eq_true, if_false]
      rcases hbc with rfl | hok
      · exact absurd rfl hbe
      · exact buildGroup_render_some hok
  refine ⟨?_, hbuild, ?_⟩
  · by_cases hpe : pre = []
    · rw [show List.isEmpty pre = true by simp [hpe]]
      rw [if_pos rfl, if_pos rfl, List.nil_append]
      apply preGroup_skip
      intro c hc
      have := hbsHead c hc
      subst this
      exact ⟨by decide, by decide⟩
    · rw [show List.isEmpty pre = false by simp [hpe]]
      simp only [Bool.false_eq_true, if_false, List.cons_append]
      rcases hpre with rfl | ⟨hok, hplus⟩
      · exact absurd rfl hpe
      · exact preGroup_render hok hplus hbsHead
  · intro c hc
    by_cases hpe : pre = []
    · rw [show List.isEmpty pre = true by simp [hpe]] at hc
      rw [if_pos rfl, List.nil_append] at hc
      have := hbsHead c hc
      subst this
      exact ⟨by decide, by decide⟩
    · rw [show List.isEmpty pre = false by simp [hpe]] at hc
      simp only [Bool.false_eq_true, if_false, List.cons_append, List.head?_cons,
        Option.some.injEq] at hc
      subst hc
      exact ⟨by decide, by decide⟩

/-! ## Helper lemmas: re-parsing a rendered version -/

theorem isDigit_ne_dot {c : Char} (h : c.isDigit = true) : ¬c = '.' := by
  have := isDigit_iff.mp h
  exact char_ne_of_toNat (by show ¬c.toNat = 46; omega)

theorem natDigits_renderCharOk {n : Nat} : ∀ c ∈ natDigits n, renderCharOk c = true :=
  fun c hc => isAlnumHyphen_renderCharOk (isDigit_isAlnumHyphen (natDigits_all_digit c hc))

theorem natDigits_no_dot {n : Nat} : ∀ c ∈ natDigits n, ¬c = '.' :=
  fun c hc => isDigit_ne_dot (natDigits_all_digit c hc)

theorem versionCaptures_build {s maj r1 r2 r3 r4 : Str} {mn pt pr bc : Option Str}
    (h1 : numGroup s = some (maj, r1)) (h2 : dotNum r1 = some (mn, r2))
    (h3 : dotNum r2 = some (pt, r3)) (h4 : preGroup r3 = some (pr, r4))
    (h5 : buildGroup r4 = some bc) :
    versionCaptures s = some ⟨maj, mn, pt, pr, bc⟩ := by
  unfold versionCaptures
  simp only [h1, h2, h3, h4, h5]

/-- The canonical description of a parsed version: it exists (the
`unreachable!()` arm is dead), it has exactly `components`-many dot-joined
parts, and it is a nonempty string of digits and dots. -/
theorem versionDescription_some {s : Str} {v : Version} (h : Version.parse s = .ok v) :
    ∃ d, versionDescription v = some d ∧ (splitOnDot d).length = v.components ∧
      d ≠ [] ∧ ∀ c ∈ d, renderCharOk c = true := by
  obtain ⟨-, -, -, -, htri, -, -⟩ := Version.parse_inv h
  rcases htri with ⟨hc, -, -⟩ | ⟨hc, -⟩ | hc
  · refine ⟨natDigits v.major, ?_, ?_, natDigits_ne_nil _, natDigits_renderCharOk⟩
    · unfold versionDescription
      rw [if_neg (by rw [hc]; norm_num), if_neg (by rw [hc]; norm_num), if_pos hc]
    · rw [splitOnDot_no_dot natDigits_no_dot, hc]
      rfl
  · refine ⟨natDigits v.major ++ '.' :: natDigits v.minor, ?_, ?_, ?_, ?_⟩
    · unfold versionDescription
      rw [if_neg (by rw [hc]; norm_num), if_pos hc]
    · rw [splitOnDot_append natDigits_no_dot,
        splitOnDot_no_dot natDigits_no_dot, hc]
      rfl
    · simp [natDigits_ne_nil]
    · intro c hcm
      rcases List.mem_append.mp hcm with hcm | hcm
      · exact natDigits_renderCharOk c hcm
      · rcases List.mem_cons.mp hcm with rfl | hcm
        · decide
        · exact natDigits_renderCharOk c hcm
  · refine ⟨natDigits v.major ++ '.' :: (natDigits v.minor ++ '.' :: natDigits v.patch),
      ?_, ?_, ?_, ?_⟩
    · unfold versionDescription
      rw [if_pos hc]
    · rw [splitOnDot_append natDigits_no_dot,
        splitOnDot_append natDigits_no_dot,
        splitOnDot_no_dot natDigits_no_dot, hc]
      rfl
    · simp [natDigits_ne_nil]
    · intro c hcm
      rcases List.mem_append.mp hcm with hcm | hcm
      · exact natDigits_renderCharOk c hcm
      · rcases List.mem_cons.mp hcm with rfl | hcm
        · decide
        · rcases List.mem_append.mp hcm with hcm | hcm
          · exact natDigits_renderCharOk c hcm
          · rcases List.mem_cons.mp hcm with rfl | hcm
            · decide
            · exact natDigits_renderCharOk c hcm

/-- A parsed version always renders (the formatter's `unreachable!()` arm is
dead), the rendering is nonempty, and it consists of segment characters,
dots, hyphens and plus signs only. -/
theorem version_render_some {s : Str} {v : Version} (h : Version.parse s = .ok v) :
    ∃ out, v.render = some out ∧ out ≠ [] ∧ ∀ c ∈ out, renderCharOk c = true := by
  obtain ⟨-, -, -, -, -, hpre, hbcv⟩ := Version.parse_inv h
  obtain ⟨d, hd, -, hdne, hdchars⟩ := versionDescription_some h
  refine ⟨d ++ (if v.pre.isEmpty then [] else '-' :: v.pre) ++
      (if v.build_code.isEmpty then [] else '+' :: v.build_code), ?_, ?_, ?_⟩
  · unfold Version.render
    rw [hd]
    rfl
  · simp [hdne]
  · intro c hcm
    rcases List.mem_append.mp hcm with hcm | hcm
    · rcases List.mem_append.mp hcm with hcm | hcm
      · exact hdchars c hcm
      · by_cases hpe : v.pre = []
        · rw [show List.isEmpty v.pre = true by simp [hpe], if_pos rfl] at hcm
          cases hcm
        · rw [show List.isEmpty v.pre = false by simp [hpe]] at hcm
          simp only [Bool.false_eq_true, if_false] at hcm
          rcases List.mem_cons.mp hcm with rfl | hcm
          · decide
          · rcases hpre with hnil | ⟨hok, -⟩
            · exact absurd hnil hpe
            · exact preTextOk_chars hok c hcm
    · by_cases hbe : v.build_code = []
      · rw [show List.isEmpty v.build_code = true by simp [hbe], if_pos rfl] at hcm
        cases hcm
      · rw [show List.isEmpty v.build_code = false by simp [hbe]] at hcm
        simp only [Bool.false_eq_true, if_false] at hcm
        rcases List.mem_cons.mp hcm with rfl | hcm
        · decide
        · rcases hbcv with hnil | hok
          · exact absurd hnil hbe
          · exact buildTextOk_chars hok c hcm

/-- Re-parsing a rendered version recovers exactly the capture groups that
the value determines. -/
theorem versionCaptures_render {s : Str} {v : Version} (h : Version.parse s = .ok v)
    {out : Str} (hout : v.render = some out) :
    versionCaptures out = some ⟨natDigits v.major,
      if v.components = 1 then none else some (natDigits v.minor),
      if v.components = 3 then some (natDigits v.patch) else none,
      if v.pre.isEmpty then none else some ('-' :: v.pre),
      if v.build_code.isEmpty then none else some v.build_code⟩ := by
  obtain ⟨-, -, -, -, htri, hpre, hbcv⟩ := Version.parse_inv h
  obtain ⟨hPG, hBG, hTH⟩ := tail_assembly hpre hbcv
  unfold Version.render at hout
  rcases htri with ⟨hc, -, -⟩ | ⟨hc, -⟩ | hc
  · rw [show versionDescription v = some (natDigits v.major) by
      unfold versionDescription
      rw [if_neg (by rw [hc]; norm_num), if_neg (by rw [hc]; norm_num), if_pos hc]] at hout
    simp only [Option.map_some', Option.some.injEq] at hout
    subst hout
    rw [List.append_assoc]
    rw [versionCaptures_build
      (numGroup_natDigits (n := v.major) fun c hc' => (hTH c hc').2)
      (dotNum_skip fun c hc' => (hTH c hc').1)
      (dotNum_skip fun c hc' => (hTH c hc').1)
      hPG hBG]
    simp [hc]
  · rw [show versionDescription v = some (natDigits v.major ++ '.' :: natDigits v.minor) by
      unfold versionDescription
      rw [if_neg (by rw [hc]; norm_num), if_pos hc]] at hout
    simp only [Option.map_some', Option.some.injEq] at hout
    subst hout
    rw [List.append_assoc, List.append_assoc, List.cons_append]
    rw [versionCaptures_build
      (numGroup_natDigits (n := v.major) fun c hc' => by
        rw [List.head?_cons, Option.some.injEq] at hc'
        subst hc'
        decide)
      (dotNum_render (n := v.minor) fun c hc' => (hTH c hc').2)
      (dotNum_skip fun c hc' => (hTH c hc').1)
      hPG hBG]
    simp [hc]
  · rw [show versionDescription v =
        some (natDigits v.major ++ '.' :: (natDigits v.minor ++ '.' :: natDigits v.patch)) by
      unfold versionDescription
      rw [if_pos hc]] at hout
    simp only [Option.map_some', Option.some.injEq] at hout
    subst hout
    rw [List.append_assoc, List.append_assoc, List.cons_append, List.append_assoc,
      List.cons_append]
    rw [versionCaptures_build
      (numGroup_natDigits (n := v.major) fun c hc' => by
        rw [List.head?_cons, Option.some.injEq] at hc'
        subst hc'
        decide)
      (dotNum_render (n := v.minor) fun c hc' => by
        rw [List.head?_cons, Option.some.injEq] at hc'
        subst hc'
        decide)
      (dotNum_render (n := v.patch) fun c hc' => (hTH c hc').2)
      hPG hBG]
    simp [hc]

/-- Re-parsing a rendered version succeeds and reproduces every parsed
field (`raw` aside). -/
theorem version_roundtrip_fields {s : Str} {v : Version} (h : Version.parse s = .ok v)
    {out : Str} (hout : v.render = some out) :
    ∃ v', Version.parse out = .ok v' ∧ versionFieldsEq v v' := by
  obtain ⟨-, hM, hm, hp, htri, -, -⟩ := Version.parse_inv h
  have hcaps := versionCaptures_render h hout
  refine ⟨_, Version.parse_ok_iff.mpr ⟨_, hcaps, rfl⟩, ?_⟩
  unfold versionFieldsEq
  refine ⟨?_, ?_, ?_, ?_, ?_, ?_⟩
  · exact (u64val_natDigits hM).symm
  · rcases htri with ⟨hc, hmz, -⟩ | ⟨hc, -⟩ | hc
    · simp [hc, hmz]
    · simp [hc, u64val_natDigits hm]
    · simp [hc, u64val_natDigits hm]
  · rcases htri with ⟨hc, -, hpz⟩ | ⟨hc, hpz⟩ | hc
    · simp [hc, hpz]
    · simp [hc, hpz]
    · simp [hc, u64val_natDigits hp]
  · by_cases hpe : v.pre = []
    · rw [show List.isEmpty v.pre = true by simp [hpe]]
      simp [hpe]
    · rw [show List.isEmpty v.pre = false by simp [hpe]]
      simp [stripLeadingDash]
  · by_cases hbe : v.build_code = []
    · rw [show List.isEmpty v.build_code = true by simp [hbe]]
      simp [hbe]
    · rw [show List.isEmpty v.build_code = false by simp [hbe]]
      simp
  · rcases htri with ⟨hc, -, -⟩ | ⟨hc, -⟩ | hc
    · simp [hc]
    · simp [hc]
    · simp [hc]

/-! ## Helper lemmas: release parsing and re-parsing -/

theorem except_toOption_some {e : Except InvalidVersion Version} {v : Version} :
    e.toOption = some v ↔ e = .ok v := by
  cases e <;> simp [Except.toOption]

theorem Release.parse_invariants {s : Str} {r : Release} (h : Release.parse s = .ok r) :
    r.raw = trim s ∧ utf8Len (trim s) ≤ 250 ∧
      ¬trim s = ['.'] ∧ ¬trim s = ['.', '.'] ∧ ¬trim s = ['l', 'a', 't', 'e', 's', 't'] ∧
      validReleaseMatch (trim s) = true ∧
      ((releaseCaptures (trim s) = some (r.package, r.version_raw) ∧
          (if is_build_hash r.version_raw = true then r.version = none
            else r.version = (Version.parse r.version_raw).toOption)) ∨
        (releaseCaptures (trim s) = none ∧ r.package = [] ∧ r.version_raw = trim s ∧
          r.version = none)) := by
  unfold Release.parse at h
  dsimp only at h
  split at h
  · cases h
  next h1 =>
    split at h
    · cases h
    next h2 =>
      split at h
      · cases h
      next h3 =>
        have h1' : utf8Len (trim s) ≤ 250 := by omega
        have h2' : ¬trim s = ['.'] ∧ ¬trim s = ['.', '.'] ∧
            ¬trim s = ['l', 'a', 't', 'e', 's', 't'] := by
          simp only [Bool.or_eq_true, decide_eq_true_eq, not_or] at h2
          exact ⟨h2.1.1, h2.1.2, h2.2⟩
        have h3' : validReleaseMatch (trim s) = true := by
          simp only [Bool.not_eq_true', Bool.not_eq_false] at h3
          exact h3
        split at h
        next pkg vr hcap =>
          split at h
          next hh =>
            injection h with h
            subst h
            refine ⟨rfl, h1', h2'.1, h2'.2.1, h2'.2.2, h3', Or.inl ⟨hcap, ?_⟩⟩
            rw [if_neg (by simp only [Bool.not_eq_true', Bool.not_eq_false] at hh; simp [hh])]
          next hh =>
            injection h with h
            subst h
            refine ⟨rfl, h1', h2'.1, h2'.2.1, h2'.2.2, h3', Or.inl ⟨hcap, ?_⟩⟩
            rw [if_pos (by simpa using hh)]
        next hcap =>
          injection h with h
          subst h
          exact ⟨rfl, h1', h2'.1, h2'.2.1, h2'.2.2, h3', Or.inr ⟨hcap, rfl, rfl, rfl⟩⟩

theorem Release.parse_ok_nosplit {s : Str} (h1 : utf8Len (trim s) ≤ 250)
    (h2 : ¬trim s = ['.']) (h3 : ¬trim s = ['.', '.'])
    (h4 : ¬trim s = ['l', 'a', 't', 'e', 's', 't'])
    (h5 : validReleaseMatch (trim s) = true) (hc : releaseCaptures (trim s) = none) :
    Release.parse s = .ok ⟨trim s, [], trim s, none⟩ := by
  unfold Release.parse
  rw [if_neg (by omega), if_neg (by simp [h2, h3, h4]), if_neg (by simp [h5])]
  simp only [hc]

theorem Release.parse_ok_split {s p v : Str} (h1 : utf8Len (trim s) ≤ 250)
    (h2 : ¬trim s = ['.']) (h3 : ¬trim s = ['.', '.'])
    (h4 : ¬trim s = ['l', 'a', 't', 'e', 's', 't'])
    (h5 : validReleaseMatch (trim s) = true)
    (hc : releaseCaptures (trim s) = some (p, v)) (hh : is_build_hash v = false) :
    Release.parse s = .ok ⟨trim s, p, v, (Version.parse v).toOption⟩ := by
  unfold Release.parse
  rw [if_neg (by omega), if_neg (by simp [h2, h3, h4]), if_neg (by simp [h5])]
  simp only [hc]
  rw [if_pos (by simp [hh])]

theorem renderChars_not_lf {l : Str} (h : ∀ c ∈ l, renderCharOk c = true) :
    l.contains '\n' = false := by
  by_cases hc : l.contains '\n' = true
  · exfalso
    have : '\n' ∈ l := by simpa [List.contains] using hc
    have := h '\n' this
    cases this
  · simpa using hc

theorem renderChars_not_ws {l : Str} (h : ∀ c ∈ l, renderCharOk c = true) :
    ∀ c ∈ l, rustIsWhitespace c = false :=
  fun c hc => (renderCharOk_not_special (h c hc)).2.2.2.2

theorem renderCharOk_validChar {c : Char} (h : renderCharOk c = true) :
    (!(c = '/') && !(c = '\r') && !(c = '\n')) = true := by
  have hs := renderCharOk_not_special h
  simp [hs.2.1, hs.2.2.1, hs.2.2.2.1]

/-- Re-parsing the canonical rendering of a parsed release, when the
rendering passes the length check and the rendered version is not itself
recognized as a build hash, succeeds and reproduces the package, the parsed
version fields and the build hash. -/
theorem release_roundtrip {s : Str} {r : Release} {out : Str}
    (h : Release.parse s = .ok r) (hout : r.render = some out)
    (hlen : utf8Len out ≤ 250)
    (hhash : ((r.version.bind Version.render).map is_build_hash).getD false = false) :
    ∃ r', Release.parse out = .ok r' ∧ r'.package = r.package ∧
      r'.build_hash = r.build_hash ∧ optVersionFieldsEq r.version r'.version := by
  obtain ⟨hraw, hl, hr1, hr2, hr3, hvm, hbr⟩ := Release.parse_invariants h
  cases hver : r.version with
  | none =>
    have hout' : out = trim s := by
      simp only [Release.render, hver, Option.map_some', Option.some.injEq] at hout
      rcases hbr with ⟨hcap, -⟩ | ⟨-, hpkg, hvr, -⟩
      · obtain ⟨⟨hseq, hpne, -, -⟩, -⟩ := releaseCaptures_eq_some_iff.mp hcap
        rw [show List.isEmpty r.package = false by simp [hpne]] at hout
        simp only [Bool.false_eq_true, if_false] at hout
        rw [← hout, hseq, List.append_assoc]
        rfl
      · rw [show List.isEmpty r.package = true by simp [hpkg], if_pos rfl] at hout
        rw [← hout, hvr]
        rfl
    subst hout'
    rw [Release.parse_trim, h]
    refine ⟨r, rfl, rfl, rfl, ?_⟩
    rw [hver]
    trivial
  | some v =>
    rcases hbr with ⟨hcap, hite⟩ | ⟨-, -, -, hvnone⟩
    swap
    · rw [hver] at hvnone; cases hvnone
    have hh : is_build_hash r.version_raw = false := by
      by_cases hb : is_build_hash r.version_raw = true
      · rw [if_pos hb, hver] at hite; cases hite
      · simpa using hb
    rw [if_neg (by simp [hh]), hver] at hite
    have hpv : Version.parse r.version_raw = .ok v := except_toOption_some.mp hite.symm
    obtain ⟨renderV, hrv, hrvne, hrvchars⟩ := version_render_some hpv
    have hhash' : is_build_hash renderV = false := by
      rw [hver] at hhash
      simp only [Option.some_bind] at hhash
      rw [hrv] at hhash
      simpa using hhash
    obtain ⟨⟨hseq, hpne, hdrop, hhead⟩, -⟩ := releaseCaptures_eq_some_iff.mp hcap
    have hout' : out = r.package ++ '@' :: renderV := by
      simp only [Release.render, hver, hrv, Option.map_some', Option.some.injEq] at hout
      rw [show List.isEmpty r.package = false by simp [hpne]] at hout
      simp only [Bool.false_eq_true, if_false] at hout
      rw [← hout, List.append_assoc]
      rfl
    have hcap' : releaseCaptures out = some (r.package, renderV) :=
      releaseCaptures_eq_some_iff.mpr
        ⟨⟨hout', hpne, hdrop, hhead⟩, renderChars_not_lf hrvchars⟩
    have htr : trim out = out := by
      obtain ⟨q, pkg', hq⟩ : ∃ q pkg', r.package = q :: pkg' := by
        cases hpk : r.package with
        | nil => exact absurd hpk hpne
        | cons q pkg' => exact ⟨q, pkg', rfl⟩
      apply trim_eq_self
      · intro c hc
        rw [hout', hq, List.cons_append, List.head?_cons, Option.some.injEq] at hc
        subst hc
        apply trim_head?_not_ws (s := s)
        rw [hseq, hq]
        rfl
      · intro c hc
        rw [hout', List.getLast?_append_of_ne_nil r.package (List.cons_ne_nil '@' renderV),
          show ('@' :: renderV : Str) = ['@'] ++ renderV from rfl,
          List.getLast?_append_of_ne_nil ['@'] hrvne] at hc
        exact renderChars_not_ws hrvchars c (getLast?_mem' hc)
    have hat : '@' ∈ out := by
      rw [hout']
      exact List.mem_append_right _ (by simp)
    have hne1 : ¬out = ['.'] := fun he => by rw [he] at hat; simp at hat
    have hne2 : ¬out = ['.', '.'] := fun he => by rw [he] at hat; simp at hat
    have hne3 : ¬out = ['l', 'a', 't', 'e', 's', 't'] := fun he => by
      rw [he] at hat; simp at hat
    have hvm' : validReleaseMatch out = true := by
      rw [hout']
      rw [hseq] at hvm
      simp only [validReleaseMatch, List.all_append, List.all_cons,
        Bool.and_eq_true] at hvm ⊢
      refine ⟨hvm.1, by decide, ?_⟩
      rw [List.all_eq_true]
      intro c hc
      exact renderCharOk_validChar (hrvchars c hc)
    have hparse : Release.parse out =
        .ok ⟨trim out, r.package, renderV, (Version.parse renderV).toOption⟩ :=
      Release.parse_ok_split (by rw [htr]; exact hlen) (by rw [htr]; exact hne1)
        (by rw [htr]; exact hne2) (by rw [htr]; exact hne3) (by rw [htr]; exact hvm')
        (by rw [htr]; exact hcap') hhash'
    obtain ⟨v', hv', hfields⟩ := version_roundtrip_fields hpv hrv
    refine ⟨⟨trim out, r.package, renderV, (Version.parse renderV).toOption⟩, hparse, rfl,
      ?_, ?_⟩
    · show Release.build_hash _ = Release.build_hash r
      unfold Release.build_hash
      rw [hver]
      show (match ((Version.parse renderV).toOption.bind Version.buildCodeOpt) with
        | some bc => if is_build_hash bc = true then some bc
            else if is_build_hash renderV = true then some renderV else none
        | none => if is_build_hash renderV = true then some renderV else none) =
        (match ((some v).bind Version.buildCodeOpt) with
        | some bc => if is_build_hash bc = true then some bc
            else if is_build_hash r.version_raw = true then some r.version_raw else none
        | none => if is_build_hash r.version_raw = true then some r.version_raw else none)
      rw [except_toOption_some.mpr hv']
      simp only [Option.some_bind]
      obtain ⟨-, -, -, -, hbceq, -⟩ := hfields
      unfold Version.buildCodeOpt
      rw [← hbceq]
      by_cases hbe : v.build_code = []
      · rw [show List.isEmpty v.build_code = true by simp [hbe], if_pos rfl]
        simp [hh, hhash']
      · rw [show List.isEmpty v.build_code = false by simp [hbe]]
        simp only [Bool.false_eq_true, if_false]
        by_cases hhb : is_build_hash v.build_code = true
        · simp [hhb]
        · simp only [Bool.not_eq_true] at hhb
          simp [hhb, hh, hhash']
    · show optVersionFieldsEq (some v) ((Version.parse renderV).toOption)
      rw [except_toOption_some.mpr hv']
      exact hfields

theorem Release.parse_ok_split_hash {s p v : Str} (h1 : utf8Len (trim s) ≤ 250)
    (h2 : ¬trim s = ['.']) (h3 : ¬trim s = ['.', '.'])
    (h4 : ¬trim s = ['l', 'a', 't', 'e', 's', 't'])
    (h5 : validReleaseMatch (trim s) = true)
    (hc : releaseCaptures (trim s) = some (p, v)) (hh : is_build_hash v = true) :
    Release.parse s = .ok ⟨trim s, p, v, none⟩ := by
  unfold Release.parse
  rw [if_neg (by omega), if_neg (by simp [h2, h3, h4]), if_neg (by simp [h5])]
  simp only [hc]
  rw [if_neg (by simp [hh])]

theorem isEmpty_false_iff {l : Str} : l.isEmpty = false ↔ l ≠ [] :=
  Bool.eq_false_iff.trans (not_congr List.isEmpty_iff)

theorem contains_false_iff {l : Str} {a : Char} : l.contains a = false ↔ a ∉ l := by
  constructor
  · intro h hm
    have hc : l.contains a = true := by simpa [List.contains] using hm
    rw [h] at hc
    cases hc
  · intro h
    by_cases hc : l.contains a = true
    · exact absurd (by simpa [List.contains] using hc) h
    · simpa using hc

theorem segOk_iff {p : Str} : segOk p = true ↔ SegRule p := by
  unfold segOk SegRule
  simp only [Bool.or_eq_true, Bool.and_eq_true, List.all_eq_true, List.any_eq_true,
    decide_eq_true_eq, Bool.not_eq_true', isEmpty_false_iff, ne_eq,
    decide_eq_false_iff_not]
  tauto

theorem preTextOk_iff {t : Str} :
    preTextOk t = true ↔ ∃ p0 ps, splitOnDot t = p0 :: ps ∧ (p0 = [] ∨ SegRule p0) ∧
      ∀ p ∈ ps, SegRule p := by
  obtain ⟨p0, ps, hps⟩ := splitOnDot_dest t
  unfold preTextOk
  rw [hps]
  show ((List.isEmpty p0 || segOk p0) && ps.all segOk) = true ↔ _
  constructor
  · intro h
    simp only [Bool.and_eq_true, Bool.or_eq_true, List.all_eq_true] at h
    refine ⟨p0, ps, rfl, ?_, fun p hp => segOk_iff.mp (h.2 p hp)⟩
    rcases h.1 with he | hs
    · exact Or.inl (List.isEmpty_iff.mp he)
    · exact Or.inr (segOk_iff.mp hs)
  · intro ⟨q0, qs, hq, h0, hrest⟩
    injection hq with hq hq'
    subst hq
    subst hq'
    simp only [Bool.and_eq_true, Bool.or_eq_true, List.all_eq_true]
    constructor
    · rcases h0 with rfl | hr
      · exact Or.inl rfl
      · exact Or.inr (segOk_iff.mpr hr)
    · exact fun p hp => segOk_iff.mpr (hrest p hp)

/-- Parsing `"1.0.0-" ++ t` (for `+`-free `t`) succeeds exactly when the
pre-release text `t` passes the segment check. -/
theorem parse_one_zero_zero_dash (t : Str) (hplus : t.contains '+' = false) :
    (Version.parse ('1' :: '.' :: '0' :: '.' :: '0' :: '-' :: t)).toOption.isSome = true ↔
      preTextOk t = true := by
  have hplus' : ∀ c ∈ t, ¬c = '+' := fun c hc he =>
    contains_false_iff.mp hplus (he ▸ hc)
  have hTU : takeUntilPlus t = (t, []) := by
    unfold takeUntilPlus
    have h := takeWhile_eq_self (l := t) (p := fun c => !(c = '+'))
      fun c hc => by simp [hplus' c hc]
    rw [h.1, h.2]
  have h1 : numGroup ('1' :: '.' :: '0' :: '.' :: '0' :: '-' :: t) =
      some (['1'], '.' :: '0' :: '.' :: '0' :: '-' :: t) := by
    simp [numGroup, takeDigits]
  have h2 : dotNum ('.' :: '0' :: '.' :: '0' :: '-' :: t) =
      some (some ['0'], '.' :: '0' :: '-' :: t) := by
    simp [dotNum, numGroup]
  have h3 : dotNum ('.' :: '0' :: '-' :: t) = some (some ['0'], '-' :: t) := by
    simp [dotNum, numGroup]
  have h4 : preGroup ('-' :: t) =
      (if preTextOk t = true then some (some ('-' :: t), []) else none) := by
    simp only [preGroup, hTU]
    rw [if_pos (by simp)]
  by_cases hok : preTextOk t = true
  · rw [if_pos hok] at h4
    have hcaps := versionCaptures_build h1 h2 h3 h4 (rfl : buildGroup [] = some none)
    unfold Version.parse
    rw [hcaps]
    simp [hok, Except.toOption]
  · rw [if_neg hok] at h4
    have hcaps : versionCaptures ('1' :: '.' :: '0' :: '.' :: '0' :: '-' :: t) = none := by
      unfold versionCaptures
      simp only [h1, h2, h3, h4]
    unfold Version.parse
    rw [hcaps]
    simp [hok, Except.toOption]

/-! ## Claim theorems -/

/-- C1 counterexample: the claim says `parse_release "1.2.3"` yields
`version = Some(1.2.3)`.  In the code, when no `@` split exists the fallback
arm always stores `version = None`, even though `parse_version "1.2.3"`
would succeed. -/
theorem packageless_version_none_counterexample :
    Release.parse "1.2.3".toList = .ok ⟨"1.2.3".toList, [], "1.2.3".toList, none⟩ ∧
      Version.parse "1.2.3".toList = .ok ⟨"1.2.3".toList, 1, 2, 3, [], [], 3⟩ :=
  ⟨rfl, rfl⟩

/-- C1 (amended): for every valid release string with no `@` split,
`parse_release` succeeds with `package` empty (`package() = None`),
`version_raw` equal to the entire trimmed input, and `version = None` —
`parse_version` is never attempted in the packageless case. -/
theorem packageless_version_none {s : Str}
    (h1 : utf8Len (trim s) ≤ 250) (h2 : ¬trim s = ['.']) (h3 : ¬trim s = ['.', '.'])
    (h4 : ¬trim s = ['l', 'a', 't', 'e', 's', 't'])
    (h5 : validReleaseMatch (trim s) = true) (hc : releaseCaptures (trim s) = none) :
    Release.parse s = .ok ⟨trim s, [], trim s, none⟩ ∧
      Release.packageOpt ⟨trim s, [], trim s, none⟩ = none :=
  ⟨Release.parse_ok_nosplit h1 h2 h3 h4 h5 hc, rfl⟩

/-- C1 witness: the amended claim applied to the concrete input `"7.8"`. -/
theorem packageless_version_none_witness :
    Release.parse "7.8".toList = .ok ⟨"7.8".toList, [], "7.8".toList, none⟩ ∧
      Release.packageOpt ⟨"7.8".toList, [], "7.8".toList, none⟩ = none :=
  packageless_version_none (s := "7.8".toList) (by decide) (by decide) (by decide)
    (by decide) (by decide) (by decide)

/-- C2 counterexample: the claim says `parse_version "1.0.0-"` fails with
`InvalidVersion`; in fact it succeeds (the pre-release body after the
leading `-` is optional in `VERSION_REGEX`), with `pre() = None`. -/
theorem empty_first_segment_counterexample :
    Version.parse "1.0.0-".toList = .ok ⟨"1.0.0-".toList, 1, 0, 0, [], [], 3⟩ ∧
      Version.preOpt ⟨"1.0.0-".toList, 1, 0, 0, [], [], 3⟩ = none :=
  ⟨rfl, rfl⟩

/-- C2 (amended): a whole pre-release segment is `"0"`, a digit run with no
leading zero, or an alphanumeric-and-hyphen run containing at least one
non-digit; the *first* segment may additionally be empty — with or without a
non-empty remainder of the body — while every later segment must satisfy the
rule.  In particular `parse_version "1.0.0-"` succeeds with an empty
pre-release, `parse_version "1.0.0-.a"` succeeds with `pre = ".a"`, and
`parse_version "1.0.0-a."` (an empty *later* segment) is rejected. -/
theorem prerelease_segment_rule :
    (∀ p : Str, segOk p = true ↔ SegRule p) ∧
    (∀ t : Str, t.contains '+' = false →
      ((Version.parse ('1' :: '.' :: '0' :: '.' :: '0' :: '-' :: t)).toOption.isSome = true ↔
        ∃ p0 ps, splitOnDot t = p0 :: ps ∧ (p0 = [] ∨ SegRule p0) ∧ ∀ p ∈ ps, SegRule p)) ∧
    Version.parse "1.0.0-".toList = .ok ⟨"1.0.0-".toList, 1, 0, 0, [], [], 3⟩ ∧
    Version.parse "1.0.0-.a".toList = .ok ⟨"1.0.0-.a".toList, 1, 0, 0, ".a".toList, [], 3⟩ ∧
    Version.parse "1.0.0-a.".toList = .error .invalidVersion := by
  refine ⟨fun p => segOk_iff, fun t ht => ?_, rfl, rfl, rfl⟩
  rw [parse_one_zero_zero_dash t ht]
  exact preTextOk_iff

/-- C2 witness: the amended rule applied to the concrete pre-release text
`"rc.1"`. -/
theorem prerelease_segment_rule_witness :
    (Version.parse ('1' :: '.' :: '0' :: '.' :: '0' :: '-' :: "rc.1".toList)).toOption.isSome
      = true :=
  (prerelease_segment_rule.2.1 "rc.1".toList (by decide)).mpr
    ⟨['r', 'c'], [['1']], by decide, Or.inr (segOk_iff.mp (by decide)), by
      intro p hp
      simp only [List.mem_singleton] at hp
      subst hp
      exact segOk_iff.mp (by decide)⟩

set_option maxRecDepth 100000 in
/-- C3 counterexample: a 251-character input consisting of whitespace only
is trimmed to the empty string and parses successfully, so a 251-character
input does not always fail with `TooLong`. -/
theorem too_long_counterexample :
    (List.replicate 251 ' ').length = 251 ∧
      Release.parse (List.replicate 251 ' ') = .ok ⟨[], [], [], none⟩ := by
  constructor
  · rfl
  · rfl

/-- C3 (amended): `parse_release` rejects with `TooLong` exactly when the
*trimmed* input's UTF-8 byte length exceeds 250. -/
theorem too_long_iff_trimmed_length (s : Str) :
    Release.parse s = .error .tooLong ↔ 250 < utf8Len (trim s) := by
  constructor
  · intro h
    by_contra hn
    unfold Release.parse at h
    dsimp only at h
    rw [if_neg hn] at h
    split at h
    · injection h with h
      cases h
    · split at h
      · injection h with h
        cases h
      · split at h
        · split at h
          · cases h
          · cases h
        · cases h
  · intro h
    unfold Release.parse
    dsimp only
    rw [if_pos h]

set_option maxRecDepth 100000 in
/-- C3 witness: the amended claim applied to a 251-byte non-whitespace
input, which does fail with `TooLong`. -/
theorem too_long_iff_trimmed_length_witness :
    Release.parse (List.replicate 251 'a') = .error .tooLong :=
  (too_long_iff_trimmed_length (List.replicate 251 'a')).mpr (by decide)

set_option maxRecDepth 1000000 in
/-- C4 counterexample: round-trip idempotence fails in two ways.  First,
`"p@123456789012-"` parses with a `Version` whose rendering is the 12-hex
string `"123456789012"`, so re-parsing the rendering `"p@123456789012"`
classifies the version slot as a build hash: the re-parse has
`version = None` and a different `build_hash`.  Second, a 250-byte input
whose letter-led pre-release gains a `-` in rendering re-parses as
`TooLong`. -/
theorem release_roundtrip_counterexample :
    Release.parse "p@123456789012-".toList =
      .ok ⟨"p@123456789012-".toList, ['p'], "123456789012-".toList,
        some ⟨"123456789012-".toList, 123456789012, 0, 0, [], [], 1⟩⟩ ∧
    Release.render ⟨"p@123456789012-".toList, ['p'], "123456789012-".toList,
        some ⟨"123456789012-".toList, 123456789012, 0, 0, [], [], 1⟩⟩ =
      some "p@123456789012".toList ∧
    Release.parse "p@123456789012".toList =
      .ok ⟨"p@123456789012".toList, ['p'], "123456789012".toList, none⟩ ∧
    Release.build_hash ⟨"p@123456789012-".toList, ['p'], "123456789012-".toList,
        some ⟨"123456789012-".toList, 123456789012, 0, 0, [], [], 1⟩⟩ = none ∧
    Release.build_hash ⟨"p@123456789012".toList, ['p'], "123456789012".toList, none⟩ =
      some "123456789012".toList ∧
    Release.parse ('p' :: '@' :: '1' :: List.replicate 247 'a') =
      .ok ⟨'p' :: '@' :: '1' :: List.replicate 247 'a', ['p'], '1' :: List.replicate 247 'a',
        some ⟨'1' :: List.replicate 247 'a', 1, 0, 0, List.replicate 247 'a', [], 1⟩⟩ ∧
    Release.render ⟨'p' :: '@' :: '1' :: List.replicate 247 'a', ['p'],
        '1' :: List.replicate 247 'a',
        some ⟨'1' :: List.replicate 247 'a', 1, 0, 0, List.replicate 247 'a', [], 1⟩⟩ =
      some ('p' :: '@' :: '1' :: '-' :: List.replicate 247 'a') ∧
    Release.parse ('p' :: '@' :: '1' :: '-' :: List.replicate 247 'a') = .error .tooLong :=
  ⟨rfl, rfl, rfl, rfl, rfl, rfl, rfl, rfl⟩

/-- C4 (amended): for every input on which `parse_release` succeeds with
release `r`, if the canonical rendering is at most 250 bytes long and the
rendered version text (when a `Version` is present) is not itself
recognized by `is_build_hash`, then re-parsing the rendering succeeds and
yields a release with the same `package`, the same parsed `Version` fields
(major, minor, patch, pre, build_code, components) when a `Version` is
present, and the same `build_hash`. -/
theorem release_roundtrip_amended {s : Str} {r : Release} {out : Str}
    (h : Release.parse s = .ok r) (hout : Release.render r = some out)
    (hlen : utf8Len out ≤ 250)
    (hhash : ((r.version.bind Version.render).map is_build_hash).getD false = false) :
    ∃ r', Release.parse out = .ok r' ∧ Release.packageOpt r' = Release.packageOpt r ∧
      Release.build_hash r' = Release.build_hash r ∧
      optVersionFieldsEq r.version r'.version := by
  obtain ⟨r', h1, h2, h3, h4⟩ := release_roundtrip h hout hlen hhash
  refine ⟨r', h1, ?_, h3, h4⟩
  unfold Release.packageOpt
  rw [h2]

/-- C4 witness: the amended claim applied to `"myapp@1.2.3"`. -/
theorem release_roundtrip_amended_witness :
    ∃ r', Release.parse "myapp@1.2.3".toList = .ok r' ∧
      Release.packageOpt r' = Release.packageOpt ⟨"myapp@1.2.3".toList, "myapp".toList,
        "1.2.3".toList, some ⟨"1.2.3".toList, 1, 2, 3, [], [], 3⟩⟩ ∧
      Release.build_hash r' = Release.build_hash ⟨"myapp@1.2.3".toList, "myapp".toList,
        "1.2.3".toList, some ⟨"1.2.3".toList, 1, 2, 3, [], [], 3⟩⟩ ∧
      optVersionFieldsEq (Release.version ⟨"myapp@1.2.3".toList, "myapp".toList,
        "1.2.3".toList, some ⟨"1.2.3".toList, 1, 2, 3, [], [], 3⟩⟩) r'.version :=
  release_roundtrip_amended (s := "myapp@1.2.3".toList) rfl rfl (by decide) rfl

/-- C5: `is_build_hash s` is true exactly when the length of `s` is one of
12, 16, 20, 32, 40 or 64 and every character is an ASCII hexadecimal digit;
any other length — e.g. 7 — yields false. -/
theorem is_build_hash_characterization :
    (∀ s : Str, is_build_hash s = true ↔
      ((s.length = 12 ∨ s.length = 16 ∨ s.length = 20 ∨ s.length = 32 ∨
        s.length = 40 ∨ s.length = 64) ∧ ∀ c ∈ s, isHexChar c = true)) ∧
    is_build_hash (List.replicate 7 'a') = false := by
  refine ⟨fun s => ?_, by decide⟩
  unfold is_build_hash
  dsimp only
  constructor
  · intro h
    split at h
    next hcond =>
      have hhex : ∀ c ∈ s, isHexChar c = true := by
        unfold hexMatch at h
        simp only [Bool.and_eq_true, List.all_eq_true] at h
        exact h.2
      have hlen : utf8Len s = s.length :=
        utf8Len_eq_length fun c hc => isHexChar_ascii (hhex c hc)
      rw [hlen] at hcond
      simp only [Bool.or_eq_true, decide_eq_true_eq] at hcond
      exact ⟨by tauto, hhex⟩
    next => cases h
  · intro ⟨hlens, hhex⟩
    have hlen : utf8Len s = s.length :=
      utf8Len_eq_length fun c hc => isHexChar_ascii (hhex c hc)
    have hne : s ≠ [] := by
      intro he
      subst he
      simp at hlens
    rw [if_pos (by rw [hlen]; simp only [Bool.or_eq_true, decide_eq_true_eq]; tauto)]
    unfold hexMatch
    simp only [Bool.and_eq_true, List.all_eq_true, Bool.not_eq_true', isEmpty_false_iff]
    exact ⟨hne, hhex⟩

/-- C6: in `parse_release`, a hash-classified `version_raw` always yields
`version = None`; a `version_raw` that is not a hash and fails
`parse_version` still yields a successful release with `version = None` and
`version_raw` preserved; and a release passing the length, restricted-name
and character validations is never rejected, whatever its version part. -/
theorem version_slot_degrades :
    (∀ s : Str, ∀ r : Release, Release.parse s = .ok r →
      (is_build_hash r.version_raw = true → r.version = none) ∧
      (is_build_hash r.version_raw = false →
        ∀ e, Version.parse r.version_raw = .error e → r.version = none)) ∧
    (∀ s : Str, utf8Len (trim s) ≤ 250 → ¬trim s = ['.'] → ¬trim s = ['.', '.'] →
      ¬trim s = ['l', 'a', 't', 'e', 's', 't'] → validReleaseMatch (trim s) = true →
      ∃ r, Release.parse s = .ok r) := by
  constructor
  · intro s r h
    obtain ⟨-, -, -, -, -, -, hbr⟩ := Release.parse_invariants h
    constructor
    · intro hh
      rcases hbr with ⟨-, hite⟩ | ⟨-, -, -, hv⟩
      · rw [if_pos hh] at hite
        exact hite
      · exact hv
    · intro hh e he
      rcases hbr with ⟨-, hite⟩ | ⟨-, -, -, hv⟩
      · rw [if_neg (by simp [hh]), he] at hite
        exact hite
      · exact hv
  · intro s h1 h2 h3 h4 h5
    cases hc : releaseCaptures (trim s) with
    | none => exact ⟨_, Release.parse_ok_nosplit h1 h2 h3 h4 h5 hc⟩
    | some pv =>
      by_cases hh : is_build_hash pv.2 = true
      · exact ⟨_, Release.parse_ok_split_hash h1 h2 h3 h4 h5 (by rw [hc]) hh⟩
      · exact ⟨_, Release.parse_ok_split h1 h2 h3 h4 h5 (by rw [hc])
          (by simpa using hh)⟩

/-- C6 witness: the claim applied to `"a@bb"`, whose version part is not a
hash and fails the version grammar, and to a 12-hex version part. -/
theorem version_slot_degrades_witness :
    Release.version ⟨"a@bb".toList, ['a'], ['b', 'b'], none⟩ = none ∧
      Release.version
        ⟨"a@123456789012".toList, ['a'], "123456789012".toList, none⟩ = none :=
  ⟨(version_slot_degrades.1 "a@bb".toList ⟨"a@bb".toList, ['a'], ['b', 'b'], none⟩
      rfl).2 (by decide) .invalidVersion rfl,
    (version_slot_degrades.1 "a@123456789012".toList
      ⟨"a@123456789012".toList, ['a'], "123456789012".toList, none⟩ rfl).1 (by decide)⟩

/-- C7: when an `@` split exists, `parse_release` splits at the first `@`
that is not part of an optional single leading `@`: the captures are
exactly the decompositions `s = p ++ '@' :: v` with `p` nonempty and
`@`-free apart from an optional leading `@` (and `v` free of line feeds,
which the validation has already ensured); e.g. `"a@b@c"` gives package
`"a"` and version_raw `"b@c"`, and `"@foo@1.0"` gives package `"@foo"` and
version_raw `"1.0"`. -/
theorem release_split_characterization :
    (∀ s p v : Str, releaseCaptures s = some (p, v) ↔
      (s = p ++ '@' :: v ∧ p ≠ [] ∧ (∀ c ∈ p.drop 1, ¬c = '@') ∧
        (p.head? = some '@' → p.drop 1 ≠ []) ∧ v.contains '\n' = false)) ∧
    Release.parse "a@b@c".toList =
      .ok ⟨"a@b@c".toList, ['a'], "b@c".toList, none⟩ ∧
    Release.parse "@foo@1.0".toList =
      .ok ⟨"@foo@1.0".toList, "@foo".toList, "1.0".toList,
        some ⟨"1.0".toList, 1, 0, 0, [], [], 2⟩⟩ := by
  refine ⟨fun s p v => ?_, rfl, rfl⟩
  rw [releaseCaptures_eq_some_iff]
  unfold GoodSplit GoodCore
  tauto

/-- C8: for every parsed version, `components` equals `1` plus one for each
of the minor and patch groups that matched, hence lies in `{1, 2, 3}`; the
canonical description emits exactly that many dot-joined components (the
`unreachable!()` arm is never taken), and re-parsing the canonical
rendering yields the same `components` value. -/
theorem components_invariant :
    ∀ s : Str, ∀ caps : RawCaps, versionCaptures s = some caps →
      ∀ v : Version, Version.parse s = .ok v →
        v.components = 1 + (if caps.minor.isSome then 1 else 0) +
            (if caps.patch.isSome then 1 else 0) ∧
        (v.components = 1 ∨ v.components = 2 ∨ v.components = 3) ∧
        (versionDescription v).map (fun d => (splitOnDot d).length) = some v.components ∧
        ∃ out v', v.render = some out ∧ Version.parse out = .ok v' ∧
          v'.components = v.components := by
  intro s caps hcaps v hv
  refine ⟨?_, ?_, ?_, ?_⟩
  · obtain ⟨caps', hcaps', hveq⟩ := Version.parse_ok_iff.mp hv
    rw [hcaps] at hcaps'
    injection hcaps' with hcaps'
    subst hcaps'
    rw [hveq]
  · obtain ⟨-, -, -, -, htri, -, -⟩ := Version.parse_inv hv
    tauto
  · obtain ⟨d, hd, hdlen, -, -⟩ := versionDescription_some hv
    rw [hd, Option.map_some', hdlen]
  · obtain ⟨out, hout, -, -⟩ := version_render_some hv
    obtain ⟨v', hv', hfields⟩ := version_roundtrip_fields hv hout
    exact ⟨out, v', hout, hv', hfields.2.2.2.2.2.symm⟩

/-- C8 witness: the claim applied to the concrete input `"1.2"`. -/
theorem components_invariant_witness :
    (⟨"1.2".toList, 1, 2, 0, [], [], 2⟩ : Version).components =
      1 + (if (RawCaps.mk ['1'] (some ['2']) none none none).minor.isSome then 1 else 0) +
        (if (RawCaps.mk ['1'] (some ['2']) none none none).patch.isSome then 1 else 0) :=
  (components_invariant "1.2".toList ⟨['1'], some ['2'], none, none, none⟩ rfl
    ⟨"1.2".toList, 1, 2, 0, [], [], 2⟩ rfl).1

/-- C9: a numeric group whose digit run does not fit in an unsigned 64-bit
integer is stored as 0 without raising an error: `parse_version` still
succeeds, and e.g. `"18446744073709551616.1"` yields `major = 0` and
`minor = 1`. -/
theorem overflow_defaults_to_zero :
    (Version.parse "18446744073709551616.1".toList =
      .ok ⟨"18446744073709551616.1".toList, 0, 1, 0, [], [], 2⟩) ∧
    ∀ s : Str, ∀ caps : RawCaps, versionCaptures s = some caps →
      ∃ v, Version.parse s = .ok v ∧
        (2 ^ 64 ≤ digitsToNat caps.major → v.major = 0) ∧
        (∀ m, caps.minor = some m → 2 ^ 64 ≤ digitsToNat m → v.minor = 0) ∧
        (∀ q, caps.patch = some q → 2 ^ 64 ≤ digitsToNat q → v.patch = 0) := by
  refine ⟨rfl, ?_⟩
  intro s caps hcaps
  refine ⟨_, Version.parse_ok_iff.mpr ⟨caps, hcaps, rfl⟩, ?_, ?_, ?_⟩
  · intro hm
    show u64val caps.major = 0
    unfold u64val
    rw [if_neg (by omega)]
  · intro m hm hbig
    show ((caps.minor.map u64val).getD 0) = 0
    rw [hm]
    show u64val m = 0
    unfold u64val
    rw [if_neg (by omega)]
  · intro q hq hbig
    show ((caps.patch.map u64val).getD 0) = 0
    rw [hq]
    show u64val q = 0
    unfold u64val
    rw [if_neg (by omega)]

/-- C9 witness: the claim applied to the overflowing major group
`"18446744073709551616"` (which is 2^64). -/
theorem overflow_defaults_to_zero_witness :
    ∃ v, Version.parse "18446744073709551616.1".toList = .ok v ∧ v.major = 0 := by
  obtain ⟨v, hv, hmaj, -, -⟩ := overflow_defaults_to_zero.2 "18446744073709551616.1".toList
    ⟨"18446744073709551616".toList, some ['1'], none, none, none⟩ rfl
  exact ⟨v, hv, hmaj (by decide)⟩

/-- C10: `parse_release` on the empty string (or any whitespace-only string,
which trims to empty) succeeds, yielding a release with `package() = None`,
an empty `version_raw`, `version = None`, and an empty canonical
rendering. -/
theorem empty_release_parses :
    Release.parse ([] : Str) = .ok ⟨[], [], [], none⟩ ∧
    Release.packageOpt ⟨[], [], [], none⟩ = none ∧
    Release.render ⟨[], [], [], none⟩ = some [] ∧
    ∀ s : Str, s.all rustIsWhitespace = true →
      Release.parse s = .ok ⟨[], [], [], none⟩ := by
  refine ⟨rfl, rfl, rfl, ?_⟩
  intro s hws
  have htr : trim s = [] := trim_of_all_ws hws
  have h := Release.parse_ok_nosplit (s := s) (by rw [htr]; decide) (by rw [htr]; decide)
    (by rw [htr]; decide) (by rw [htr]; decide) (by rw [htr]; rfl) (by rw [htr]; rfl)
  rw [htr] at h
  exact h

/-- C10 witness: the claim applied to a concrete whitespace-only string. -/
theorem empty_release_parses_witness :
    Release.parse [' ', '\t', ' '] = .ok ⟨[], [], [], none⟩ :=
  empty_release_parses.2.2.2 [' ', '\t', ' '] (by decide)

end SentryRelease
